import Mathlib

/-!
Verification development for the Veritas head-to-head ranking/lineup app.

The development shallowly embeds the three algorithmic subsystems of the
repository and proves properties about them:

* `src/services/distribution.js` — the two-sided lineup distributor
  (`distributePosition`, `distributeMatchupLineups`);
* `src/services/wizard.js` together with the driver in
  `src/components/RankingWizard.js` — the pairwise-comparison ranking engine
  (`findNextComparison`, `processSelection`, `handlePromotionChoice`,
  `movePlayerToRank`);
* `src/screens/ChatScreen.js` — the contest (matchup) state machine
  (`getEffectiveSettings`, `updatePositionCount`, `confirmMatchup`,
  `finalizeMatchup`);
* `src/services/supabase.js` (live-scoring part) — `areAllGamesFinal` and the
  batched stat writer `updateCurrentWeekStats`.

JavaScript data is embedded as follows: string player ids become `Nat`,
score figures become `Rat`, JS objects used as string-keyed maps become
association lists or `Option`-valued functions, the mutable `Set` of assigned
ids becomes a `List Nat` threaded through the computation, and the mutable
`while` loop of the distributor becomes a fuel-indexed recursion (the fuel is
a modeling artifact; theorems show the canonical fuel suffices).
-/

/-- A row of the `nfl_players` table, restricted to the fields the
distributor reads.  `projections` and `current_week_stats` are JS objects
that may be null (`Option`); their string keys are scoring-format names. -/
structure Player where
  id : Nat
  projections : Option (List (String × Rat))
  current_week_stats : Option (List (String × Rat))
  stats_week : Option Nat
deriving DecidableEq, Repr

/-- JS `obj?.[key] || 0`: read a key from a possibly-null object, with `0`
for a null object, a missing key, or a falsy (zero) value. -/
def objGet (o : Option (List (String × Rat))) (k : String) : Rat :=
  match o with
  | none => 0
  | some kvs =>
    match kvs.find? (fun kv => kv.1 == k) with
    | none => 0
    | some kv => kv.2

/-- One lineup slot as produced by `distributePosition`.  Fields that the
JS code leaves absent on some slots (`rank` on empty slots, for example) are
modeled by `Option`/`false` defaults. -/
structure Slot where
  position : String
  player : Option Player
  rank : Option Nat
  projected : Rat
  live : Rat
  conflict : Bool
  empty : Bool
deriving DecidableEq, Repr

/-- The empty slot pushed for both sides when either side has no available
player (`player: null, projected: 0, live: 0, empty: true`). -/
def emptySlot (position : String) : Slot :=
  ⟨position, none, none, 0, 0, false, true⟩

/-- JS `Set.prototype.add`: insertion-ordered, duplicate-free append. -/
def setAdd (s : List Nat) (x : Nat) : List Nat :=
  if x ∈ s then s else s ++ [x]

/-- JS `Array.prototype.indexOf`: first index of `x`, `-1` when absent. -/
def jsIndexOf (l : List Nat) (x : Nat) : Int :=
  match l.findIdx? (fun y => y == x) with
  | some i => (i : Int)
  | none => -1

/-- The live score of a player: current-week stats count only when
`stats_week` equals the current week, otherwise zero
(`(p.stats_week === currentWeek) ? (p.current_week_stats?.[fmt] || 0) : 0`). -/
def liveScore (p : Player) (formatKey : String) (currentWeek : Nat) : Rat :=
  if p.stats_week = some currentWeek then objGet p.current_week_stats formatKey else 0

/-- The filled slot pushed for one side in the no-conflict branch of
`distributePosition`. -/
def filledSlot (position : String) (p : Player) (originalRankings : List Nat)
    (formatKey : String) (currentWeek : Nat) : Slot :=
  ⟨position, some p, some (jsIndexOf originalRankings p.id + 1).toNat,
    objGet p.projections formatKey, liveScore p formatKey currentWeek, false, false⟩

/-- The `while (filled < slotCount)` loop of `distributePosition`
(src/services/distribution.js lines 41–112), as a fuel-indexed recursion over
the two remaining pools, the shared `assigned` set, and the remaining slot
count.  Each iteration either emits an empty pair (a missing player on either
side), burns a conflicting player without consuming capacity, or fills one
slot on each side.  `fuel` is a modeling artifact: the loop body never
consults it, and `distLoop_fuel_succ` below shows the result is stable once
`fuel ≥ remaining + poolA.length` for an id-consistent player map. -/
def distLoop (user1Rankings user2Rankings : List Nat) (playerMap : Nat → Option Player)
    (position : String) (formatKey : String) (currentWeek : Nat) :
    Nat → List Nat → List Nat → List Nat → Nat → List Slot × List Slot × List Nat
  | 0, _, _, assigned, _ => ([], [], assigned)
  | _, _, _, assigned, 0 => ([], [], assigned)
  | fuel + 1, poolA, poolB, assigned, rem + 1 =>
    match poolA.head?.bind playerMap, poolB.head?.bind playerMap with
    | some playerA, some playerB =>
      if playerA.id = playerB.id then
        -- conflict: burn the player, retry the same slot
        let assigned1 := setAdd assigned playerA.id
        let poolA1 := poolA.filter (fun i => !(i == playerA.id))
        let poolB1 := poolB.filter (fun i => !(i == playerB.id))
        distLoop user1Rankings user2Rankings playerMap position formatKey currentWeek
          fuel poolA1 poolB1 assigned1 (rem + 1)
      else
        -- no conflict: each side gets its own top player
        let assigned1 := setAdd (setAdd assigned playerA.id) playerB.id
        let poolA1 := poolA.filter (fun i => !(i == playerA.id) && !(i == playerB.id))
        let poolB1 := poolB.filter (fun i => !(i == playerB.id) && !(i == playerA.id))
        let slotA := filledSlot position playerA user1Rankings formatKey currentWeek
        let slotB := filledSlot position playerB user2Rankings formatKey currentWeek
        let rest := distLoop user1Rankings user2Rankings playerMap position formatKey currentWeek
          fuel poolA1 poolB1 assigned1 rem
        (slotA :: rest.1, slotB :: rest.2.1, rest.2.2)
    | _, _ =>
      -- either side has no available player: both get an empty slot
      let rest := distLoop user1Rankings user2Rankings playerMap position formatKey currentWeek
        fuel poolA poolB assigned rem
      (emptySlot position :: rest.1, emptySlot position :: rest.2.1, rest.2.2)

/-- `distributePosition(user1Rankings, user2Rankings, playerMap, assigned,
slotCount, position, scoringType, currentWeek)`: filter each side's ranked
ids against the shared `assigned` set, then run the slot-filling loop.  The
returned third component is the final contents of the (mutated) `assigned`
set. -/
def distributePosition (user1Rankings user2Rankings : List Nat)
    (playerMap : Nat → Option Player) (assigned : List Nat) (slotCount : Nat)
    (position scoringType : String) (currentWeek : Nat) :
    List Slot × List Slot × List Nat :=
  let poolA := user1Rankings.filter (fun i => !(decide (i ∈ assigned)))
  let poolB := user2Rankings.filter (fun i => !(decide (i ∈ assigned)))
  distLoop user1Rankings user2Rankings playerMap position scoringType.toLower currentWeek
    (slotCount + poolA.length) poolA poolB assigned slotCount

/-- The fixed category order of `distributeMatchupLineups` and of the
matchup screen. -/
def POSITIONS : List String :=
  ["QB", "RB", "WR", "TE", "FLEX", "SUPERFLEX", "K", "DEF"]

/-- Step 5 of `distributeMatchupLineups`: `playerMap[player.id] = player`
for each fetched row, so a lookup returns the last row carrying that id. -/
def buildPlayerMap (players : List Player) : Nat → Option Player :=
  fun k => players.reverse.find? (fun p => p.id == k)

/-- Step 6 of `distributeMatchupLineups`: process each position's slots in
strict `POSITIONS` order, threading the single shared `assigned` set, and
concatenate the per-position slot lists. -/
def distributeAllPositions (rankings1 rankings2 : String → List Nat)
    (playerMap : Nat → Option Player) (rosterSettings : List (String × Nat))
    (scoringType : String) (currentWeek : Nat) :
    List String → List Nat → List Slot × List Slot × List Nat
  | [], assigned => ([], [], assigned)
  | position :: rest, assigned =>
    let count := (rosterSettings.lookup position).getD 0
    if count = 0 then
      distributeAllPositions rankings1 rankings2 playerMap rosterSettings
        scoringType currentWeek rest assigned
    else
      let r := distributePosition (rankings1 position) (rankings2 position) playerMap
        assigned count position scoringType currentWeek
      let r2 := distributeAllPositions rankings1 rankings2 playerMap rosterSettings
        scoringType currentWeek rest r.2.2
      (r.1 ++ r2.1, r.2.1 ++ r2.2.1, r2.2.2)

/-- The pure core of `distributeMatchupLineups` (src/services/distribution.js
lines 126–235): the I/O steps are replaced by parameters — `rankings1` and
`rankings2` are the per-position ranked-id lists loaded for each user (`[]`
when a user has no record for a position) and `players` is the snapshot of
entity rows fetched from the store, from which the id-keyed `playerMap` is
built.  Returns `(lineupA, lineupB)`; the early return with empty lineups
models step 4's `allPlayerIds.size === 0` guard. -/
def distributeMatchupLineups (rankings1 rankings2 : String → List Nat)
    (players : List Player) (rosterSettings : List (String × Nat))
    (scoringType : String) (currentWeek : Nat) : List Slot × List Slot :=
  if (rosterSettings.map Prod.fst).all
      (fun position => (rankings1 position).isEmpty && (rankings2 position).isEmpty) then
    ([], [])
  else
    let r := distributeAllPositions rankings1 rankings2 (buildPlayerMap players)
      rosterSettings scoringType currentWeek POSITIONS []
    (r.1, r.2.1)

/-- The ids of the players occupying the filled slots of a lineup. -/
def filledIds (slots : List Slot) : List Nat :=
  slots.filterMap (fun s => s.player.map Player.id)

/-- A player map is id-consistent when the record stored under a key carries
that key as its id — true of every map the app builds, since
`distributeMatchupLineups` keys the map by `player.id`. -/
def ConsistentMap (playerMap : Nat → Option Player) : Prop :=
  ∀ k p, playerMap k = some p → p.id = k

/-- The default roster settings object of the matchup screen
(`DEFAULT_SETTINGS`, src/screens/ChatScreen.js line 538). -/
def DEFAULT_SETTINGS : List (String × Int) :=
  [("QB", 1), ("RB", 2), ("WR", 2), ("TE", 1), ("FLEX", 1), ("SUPERFLEX", 0),
   ("K", 1), ("DEF", 1)]

/-- A settings map: a JS object read with `settings[pos]`; `none` models a
missing or null entry. -/
def Settings : Type := String → Option Int

/-- JS `settings[pos] ?? 0` (nullish coalescing, used by
`getEffectiveSettings`). -/
def nullishGet (s : Settings) (pos : String) : Int := (s pos).getD 0

/-- `getEffectiveSettings` (src/screens/ChatScreen.js lines 576–584): for
each position of the fixed set, the effective count is
`Math.min(mySettings[pos] ?? 0, opponentSettings[pos] ?? 0)`; the result is
the built-up `effective` object. -/
def getEffectiveSettings (mySettings opponentSettings : Settings) : List (String × Int) :=
  POSITIONS.map (fun pos => (pos, min (nullishGet mySettings pos) (nullishGet opponentSettings pos)))

/-- The persisted `matchups` row, restricted to the fields the three
state-machine operations read or write.  `winnerId`/scores are carried so
that `finalizeMatchup`'s write is represented. -/
structure MatchupRecord where
  status : String
  user1Confirmed : Bool
  user2Confirmed : Bool
  user1Settings : Settings
  user2Settings : Settings
  user1Score : Rat
  user2Score : Rat
  winnerId : Option Nat

/-- The matchup screen's React state together with the persisted row it
mirrors.  `dbOk` arguments on the operations stand for the success of the
corresponding store write (a failed write leaves the row untouched). -/
structure ScreenState where
  amIUser1 : Bool
  matchupId : Option Nat
  currentUserId : Nat
  opponentId : Nat
  status : String
  user1Confirmed : Bool
  user2Confirmed : Bool
  mySettings : Settings
  opponentSettings : Settings
  totalA : Rat
  totalB : Rat
  db : MatchupRecord

/-- JS `{...settings, [pos]: n}`. -/
def settingsUpdate (s : Settings) (pos : String) (n : Int) : Settings :=
  fun q => if q = pos then some n else s q

/-- `updatePositionCount(position, increment)` (src/screens/ChatScreen.js
lines 709–745).  Reads `mySettings[position] || 0`, refuses to go below
zero, optimistically applies the new map locally, writes the side's settings
column with `confirmed=false` (and `status='pending'` when the local status
was `'active'`), and on write failure reverts the local settings; on success
the local status becomes `'pending'` and the editor's confirmation is
cleared. -/
def updatePositionCount (s : ScreenState) (position : String) (increment : Int)
    (dbOk : Bool) : ScreenState :=
  let currentCount := (s.mySettings position).getD 0
  let newCount := currentCount + increment
  if newCount < 0 then s
  else
    let newSettings := settingsUpdate s.mySettings position newCount
    match s.matchupId with
    | none => { s with mySettings := newSettings }
    | some _ =>
      if dbOk then
        let db1 :=
          if s.amIUser1 then
            { s.db with user1Settings := newSettings, user1Confirmed := false,
                        status := if s.status = "active" then "pending" else s.db.status }
          else
            { s.db with user2Settings := newSettings, user2Confirmed := false,
                        status := if s.status = "active" then "pending" else s.db.status }
        { s with mySettings := newSettings,
                 status := "pending",
                 user1Confirmed := if s.amIUser1 then false else s.user1Confirmed,
                 user2Confirmed := if s.amIUser1 then s.user2Confirmed else false,
                 db := db1 }
      else
        -- write failed: the optimistic local settings are reverted
        { s with mySettings := s.mySettings }

/-- `confirmMatchup` (src/screens/ChatScreen.js lines 747–777): sets this
side's confirmation flag; when the opponent is already confirmed the same
write also sets `status='active'`.  A failed write changes nothing. -/
def confirmMatchup (s : ScreenState) (dbOk : Bool) : ScreenState :=
  match s.matchupId with
  | none => s
  | some _ =>
    let opponentConfirmed := if s.amIUser1 then s.user2Confirmed else s.user1Confirmed
    if dbOk then
      { s with
        user1Confirmed := if s.amIUser1 then true else s.user1Confirmed,
        user2Confirmed := if s.amIUser1 then s.user2Confirmed else true,
        status := if opponentConfirmed then "active" else s.status,
        db := { s.db with
          user1Confirmed := if s.amIUser1 then true else s.db.user1Confirmed,
          user2Confirmed := if s.amIUser1 then s.db.user2Confirmed else true,
          status := if opponentConfirmed then "active" else s.db.status } }
    else s

/-- `finalizeMatchup` (src/screens/ChatScreen.js lines 779–820): guarded by
`status !== 'active'`, it determines a winner by strict comparison of the
live totals, writes `status='final'` with the scores and winner, and sets
the local status to `'final'`.  A failed write changes nothing. -/
def finalizeMatchup (s : ScreenState) (dbOk : Bool) : ScreenState :=
  if s.matchupId = none ∨ s.status ≠ "active" then s
  else
    let winnerId : Option Nat :=
      if s.totalA > s.totalB then some s.currentUserId
      else if s.totalB > s.totalA then some s.opponentId
      else none
    let u1Score := if s.amIUser1 then s.totalA else s.totalB
    let u2Score := if s.amIUser1 then s.totalB else s.totalA
    if dbOk then
      { s with
        status := "final"
        db := { s.db with
          status := "final"
          winnerId := winnerId
          user1Score := u1Score
          user2Score := u2Score } }
    else s

/-- One user action on the matchup screen, for reasoning about sequences of
operations. -/
inductive MatchupOp where
  | edit (position : String) (increment : Int) (dbOk : Bool)
  | confirm (dbOk : Bool)
  | finalize (dbOk : Bool)

/-- Apply a sequence of matchup-screen operations left to right. -/
def applyOps (s : ScreenState) : List MatchupOp → ScreenState
  | [] => s
  | MatchupOp.edit position increment dbOk :: rest =>
    applyOps (updatePositionCount s position increment dbOk) rest
  | MatchupOp.confirm dbOk :: rest => applyOps (confirmMatchup s dbOk) rest
  | MatchupOp.finalize dbOk :: rest => applyOps (finalizeMatchup s dbOk) rest

/-- A scheduled game as consumed by the live-scoring helpers. -/
structure Game where
  status : String
deriving DecidableEq, Repr

/-- `areAllGamesFinal` (src/services/supabase.js, live-scoring section,
lines 145–148): false for a missing or empty list, else every game must be
`'complete'` or `'closed'`. -/
def areAllGamesFinal (games : List Game) : Bool :=
  if games.isEmpty then false
  else games.all (fun g => g.status == "complete" || g.status == "closed")

/-- One scoring stat line `{std, ppr, half}` from the live feed. -/
structure StatLine where
  std : Rat
  ppr : Rat
  half : Rat
deriving DecidableEq, Repr

/-- One record of the bulk stat write:
`{id, current_week_stats: liveStats[id], stats_week: week}`. -/
structure StatUpdate where
  id : Nat
  current_week_stats : StatLine
  stats_week : Nat
deriving DecidableEq, Repr

/-- The result object of `updateCurrentWeekStats`: `{success, count}` on
success, `{success: false, error}` after a thrown batch error. -/
structure SyncResult where
  success : Bool
  count : Option Nat
  error : Option String
deriving DecidableEq, Repr

/-- The fixed batch size of the bulk writers. -/
def BATCH_SIZE : Nat := 500

/-- Split a list into `BATCH_SIZE` chunks (`updates.slice(i, i + 500)` for
`i = 0, 500, 1000, …`); the fuel is bounded by the list length. -/
def chunksAux : Nat → List StatUpdate → List (List StatUpdate)
  | _, [] => []
  | 0, l => [l]
  | fuel + 1, l => l.take BATCH_SIZE :: chunksAux fuel (l.drop BATCH_SIZE)

/-- All `BATCH_SIZE`-sized batches of an update list, in write order. -/
def chunks (l : List StatUpdate) : List (List StatUpdate) := chunksAux l.length l

/-- The sequential batch loop of `updateCurrentWeekStats`: upsert each batch
in order; a batch error throws, abandoning the remaining batches.  `err`
models the store's response to one upsert.  Returns
`(success, count, error, attempted batches)`; `count` carries
`totalUpdated` only along the non-throwing path, as in the source, where the
local `totalUpdated` is lost when the error is thrown. -/
def processBatches (err : List StatUpdate → Option String) :
    List (List StatUpdate) → Nat → Bool × Option Nat × Option String × List (List StatUpdate)
  | [], totalUpdated => (true, some totalUpdated, none, [])
  | batch :: rest, totalUpdated =>
    match err batch with
    | some msg => (false, none, some msg, [batch])
    | none =>
      let r := processBatches err rest (totalUpdated + batch.length)
      (r.1, r.2.1, r.2.2.1, batch :: r.2.2.2)

/-- `updateCurrentWeekStats(liveStats, week)` (src/services/supabase.js,
live-scoring section, lines 191–228): build one update record per stat-map
entry, return `{success: true, count: 0}` for an empty map, else upsert the
records in sequential `BATCH_SIZE` batches, aborting on the first failing
batch.  The second component lists the batches actually attempted. -/
def updateCurrentWeekStats (liveStats : List (Nat × StatLine)) (week : Nat)
    (err : List StatUpdate → Option String) : SyncResult × List (List StatUpdate) :=
  let updates := liveStats.map (fun e => StatUpdate.mk e.1 e.2 week)
  if updates.length = 0 then (⟨true, some 0, none⟩, [])
  else
    let r := processBatches err (chunks updates) 0
    (⟨r.1, r.2.1, r.2.2.1⟩, r.2.2.2)

/-- One entry of the ranking wizard's state: `{ id, rank, isCompared }`
(the full player object carried alongside is irrelevant to the engine). -/
structure REntry where
  id : Nat
  rank : Nat
  isCompared : Bool
deriving DecidableEq, Repr

/-- `findNextComparison(rankings)` (src/services/wizard.js lines 21–58):
the first entry (in array order) with `isCompared === false` is challenged;
at rank 1 it is paired with the rank-2 entry, otherwise with the entry one
rank above it.  Returns `(playerA, playerB)` or `none`. -/
def findNextComparison (rankings : List REntry) : Option (REntry × REntry) :=
  if rankings.length < 2 then none
  else
    match rankings.find? (fun p => !p.isCompared) with
    | none => none
    | some lowestUncompared =>
      if lowestUncompared.rank = 1 then
        match rankings.find? (fun p => p.rank == 2) with
        | none => none
        | some playerB => some (lowestUncompared, playerB)
      else
        match rankings.find? (fun p => p.rank == lowestUncompared.rank - 1) with
        | none => none
        | some playerA => some (playerA, lowestUncompared)

/-- Result object of `processSelection`. -/
structure SelectionResult where
  rankings : List REntry
  shouldPromote : Bool
  promotedPlayerId : Option Nat
deriving Repr

/-- The JS `.sort((a, b) => a.rank - b.rank)` on entries. -/
def sortByRank (l : List REntry) : List REntry :=
  l.mergeSort (fun a b => a.rank ≤ b.rank)

/-- `processSelection(rankings, winnerId, loserId)` (src/services/wizard.js
lines 68–114).  Unknown ids throw (`none` here).  Rank-2-beats-rank-1 swaps
the two ranks, marks both compared and re-sorts; a lower-ranked winner
requests a promotion cycle with the list untouched; otherwise both entries
are marked compared in place. -/
def processSelection (rankings : List REntry) (winnerId loserId : Nat) :
    Option SelectionResult :=
  match rankings.find? (fun p => p.id == winnerId),
        rankings.find? (fun p => p.id == loserId) with
  | some winner, some loser =>
    if loser.rank = 1 ∧ winner.rank = 2 then
      some ⟨sortByRank (rankings.map (fun p =>
        if p.id = winnerId then { p with rank := 1, isCompared := true }
        else if p.id = loserId then { p with rank := 2, isCompared := true }
        else p)), false, none⟩
    else if loser.rank < winner.rank then
      some ⟨rankings, true, some winnerId⟩
    else
      some ⟨rankings.map (fun p =>
        if p.id = winnerId ∨ p.id = loserId then { p with isCompared := true } else p),
        false, none⟩
  | _, _ => none

/-- Re-assign ranks by list position (`rankings.map((p, index) =>
({...p, rank: index + 1}))`), generalized over the starting rank. -/
def renumber (n : Nat) : List REntry → List REntry
  | [] => []
  | e :: es => { e with rank := n } :: renumber (n + 1) es

/-- `movePlayerToRank(rankings, playerId, newRank)` (src/services/wizard.js
lines 182–199): splice the entry out of its current position, splice it back
in at the 1-indexed target (clamped to the end like JS `splice`), and
renumber every entry by its new index. -/
def movePlayerToRank (rankings : List REntry) (playerId : Nat) (newRank : Nat) :
    List REntry :=
  match rankings.findIdx? (fun p => p.id == playerId) with
  | none => rankings
  | some playerIndex =>
    match rankings[playerIndex]? with
    | none => rankings
    | some player =>
      let rest := rankings.eraseIdx playerIndex
      renumber 1 (rest.take (newRank - 1) ++ player :: rest.drop (newRank - 1))

/-- Result object of `handlePromotionChoice`. -/
structure PromotionResult where
  rankings : List REntry
  continuePromotion : Bool
  newPromotionIndex : Option Nat
deriving Repr

/-- `handlePromotionChoice(rankings, promotedPlayerId,
currentPromotionIndex, selectedPlayerId)` (src/services/wizard.js lines
133–172).  The comparison incumbent is `rankings[currentPromotionIndex - 1]`
(absent for index 0, matching JS's `rankings[-1] === undefined`); a missing
incumbent or promoted entry throws (`none`).  A win by the promoted entry
either continues the cycle one index higher or, at the top, relocates it to
rank 1; a loss relocates it immediately below the incumbent. -/
def handlePromotionChoice (rankings : List REntry) (promotedPlayerId : Nat)
    (currentPromotionIndex : Nat) (selectedPlayerId : Nat) : Option PromotionResult :=
  let comparisonPlayer? :=
    if currentPromotionIndex = 0 then none else rankings[currentPromotionIndex - 1]?
  match rankings.find? (fun p => p.id == promotedPlayerId), comparisonPlayer? with
  | some _, some _ =>
    if selectedPlayerId = promotedPlayerId then
      if currentPromotionIndex - 1 = 0 then
        some ⟨movePlayerToRank rankings promotedPlayerId 1, false, none⟩
      else
        some ⟨rankings, true, some (currentPromotionIndex - 1)⟩
    else
      some ⟨movePlayerToRank rankings promotedPlayerId (currentPromotionIndex + 1),
        false, none⟩
  | _, _ => none

/-- End of a promotion cycle in the wizard component
(src/components/RankingWizard.js lines 136–144): the two entries of the
originating comparison are marked compared. -/
def markCompared (idA idB : Nat) (l : List REntry) : List REntry :=
  l.map (fun p => if p.id = idA ∨ p.id = idB then { p with isCompared := true } else p)

/-- The promotion loop of the wizard component (`handlePromotion`,
src/components/RankingWizard.js lines 111–159): at promotion index `cpi` the
user taps either the promoted entry or the incumbent
`rankings[cpi - 1]` (`promChoices k = true` means the promoted entry is
tapped at the k-th duel); `handlePromotionChoice` is applied until the cycle
settles.  Fuel bounds the number of duels; `cpi + 1` always suffices since a
continued cycle decrements the index. -/
def runPromotion (promotedPlayerId : Nat) (promChoices : Nat → Bool) :
    Nat → List REntry → Nat → Nat → Option (List REntry)
  | 0, _, _, _ => none
  | fuel + 1, rankings, cpi, k =>
    match (if cpi = 0 then none else rankings[cpi - 1]?) with
    | none => none
    | some comparisonPlayer =>
      match handlePromotionChoice rankings promotedPlayerId cpi
          (if promChoices k then promotedPlayerId else comparisonPlayer.id) with
      | none => none
      | some res =>
        match res.continuePromotion, res.newPromotionIndex with
        | true, some next =>
          runPromotion promotedPlayerId promChoices fuel res.rankings next (k + 1)
        | true, none => none
        | false, _ => some res.rankings

/-- One resolved comparison of the wizard (`handleSelection`,
src/components/RankingWizard.js lines 72–108): take the pair from
`findNextComparison` (`choice = true` selects `playerA`), run
`processSelection`, and on a promotion request start the cycle at the
loser's array index and run it to settlement, finally marking the
originating pair compared.  `none` only on states the engine treats as
fatal. -/
def wizardRound (rankings : List REntry) (choice : Bool) (promChoices : Nat → Bool) :
    Option (List REntry) :=
  match findNextComparison rankings with
  | none => none
  | some (playerA, playerB) =>
    let selectedId := if choice then playerA.id else playerB.id
    let loserId := if choice then playerB.id else playerA.id
    match processSelection rankings selectedId loserId with
    | none => none
    | some result =>
      if result.shouldPromote then
        match result.promotedPlayerId with
        | none => none
        | some promotedId =>
          match rankings.findIdx? (fun p => p.id == loserId) with
          | none => none
          | some loserIndex =>
            match runPromotion promotedId promChoices (loserIndex + 1)
                result.rankings loserIndex 0 with
            | none => none
            | some settled => some (markCompared playerA.id playerB.id settled)
      else some result.rankings

/-- The wizard session: resolve comparisons (round `i` uses `choices i` and
promotion choices `promChoices i`) until `findNextComparison` returns
`none`.  Fuel bounds the number of rounds; the number of entries suffices
because every round newly marks at least one entry compared. -/
def runWizard (choices : Nat → Bool) (promChoices : Nat → Nat → Bool) :
    Nat → Nat → List REntry → List REntry
  | 0, _, rankings => rankings
  | fuel + 1, i, rankings =>
    match findNextComparison rankings with
    | none => rankings
    | some _ =>
      match wizardRound rankings (choices i) (promChoices i) with
      | none => rankings
      | some next => runWizard choices promChoices fuel (i + 1) next

/-- The number of entries still waiting to be compared. -/
def countUncompared (l : List REntry) : Nat :=
  l.countP (fun e => !e.isCompared)

/-- The wizard invariant: reading the entries in array order, their ranks
are exactly `1, 2, …, N` (the component initializes entries this way and
every engine operation restores it), and no id repeats. -/
def WizInv (l : List REntry) : Prop :=
  l.map REntry.rank = List.range' 1 l.length ∧ (l.map REntry.id).Nodup

/-- The identity-and-flag projection of an entry; promotion cycles permute
entries and renumber ranks but never change this projection. -/
def proj (e : REntry) : Nat × Bool := (e.id, e.isCompared)

/-- The screen's default settings map, read with `settings[pos]`. -/
def defaultSettings : Settings := fun pos => DEFAULT_SETTINGS.lookup pos

/-- A settings map is non-negative when every entry it holds is `≥ 0`. -/
def NonNeg (f : Settings) : Prop := ∀ pos v, f pos = some v → 0 ≤ v

/-- All four capacity maps of a screen state (both sides, local and
persisted) are non-negative. -/
def NonNegState (s : ScreenState) : Prop :=
  NonNeg s.mySettings ∧ NonNeg s.opponentSettings ∧
    NonNeg s.db.user1Settings ∧ NonNeg s.db.user2Settings

/-- A finalized matchup exactly as `finalizeMatchup` leaves it: status
`'final'` both locally and in the store, and both confirmation flags still
true (confirmation is never cleared by finalization). -/
def finalizedState : ScreenState :=
  { amIUser1 := true, matchupId := some 1, currentUserId := 10, opponentId := 20,
    status := "final", user1Confirmed := true, user2Confirmed := true,
    mySettings := fun _ => some 1, opponentSettings := fun _ => some 1,
    totalA := 3, totalB := 2,
    db := { status := "final", user1Confirmed := true, user2Confirmed := true,
            user1Settings := fun _ => some 1, user2Settings := fun _ => some 1,
            user1Score := 3, user2Score := 2, winnerId := some 10 } }

/-! ### C7 — terminal-game detection -/

/-- C7 counterexample: for the empty game list, every game vacuously has a
terminal status, yet `areAllGamesFinal` returns `false`, so the claimed
equivalence fails at `games = []`. -/
theorem c7_counterexample_empty :
    areAllGamesFinal [] = false ∧
      ∀ g ∈ ([] : List Game), g.status = "complete" ∨ g.status = "closed" := by
  refine ⟨rfl, ?_⟩
  intro g hg
  cases hg

/-- C7 (amended): `areAllGamesFinal games` is true iff the list is nonempty
and every game's status is in the terminal set, i.e. `'complete'` or
`'closed'`; the empty (or missing) schedule is reported not-final. -/
theorem c7_areAllGamesFinal_iff (games : List Game) :
    areAllGamesFinal games = true ↔
      games ≠ [] ∧ ∀ g ∈ games, g.status = "complete" ∨ g.status = "closed" := by
  cases games with
  | nil => simp [areAllGamesFinal]
  | cons g gs =>
    simp [areAllGamesFinal, List.all_eq_true, List.isEmpty_cons]

/-! ### C6 — effective-capacity negotiation -/

/-- Helper: looking up a key in an object built by writing `f p` under every
key `p` of a list returns `f` of that key, for any key in the list. -/
theorem lookup_map_pair (l : List String) (f : String → Int) (pos : String) :
    pos ∈ l → (l.map (fun p => (p, f p))).lookup pos = some (f pos) := by
  induction l with
  | nil => intro h; cases h
  | cons a t ih =>
    intro h
    by_cases hpa : pos = a
    · subst hpa
      simp [List.lookup]
    · rcases List.mem_cons.mp h with h2 | h2
      · exact absurd h2 hpa
      · simpa [List.lookup, beq_false_of_ne hpa] using ih h2

/-- C6: for every position of the fixed category set, the effective capacity
computed by `getEffectiveSettings` is the minimum of the two sides' submitted
values, with a missing or null entry read as 0; in particular it never
exceeds the opponent's submitted value. -/
theorem c6_effective_is_min (mySettings opponentSettings : Settings)
    (pos : String) (h : pos ∈ POSITIONS) :
    (getEffectiveSettings mySettings opponentSettings).lookup pos
        = some (min (nullishGet mySettings pos) (nullishGet opponentSettings pos)) ∧
      min (nullishGet mySettings pos) (nullishGet opponentSettings pos)
        ≤ nullishGet opponentSettings pos := by
  exact ⟨lookup_map_pair _ _ _ h, min_le_right _ _⟩

/-- C6 witness: instantiated at position `"RB"` with side A submitting 5 and
side B submitting 2 for it: the effective capacity is 2. -/
theorem c6_witness :
    (getEffectiveSettings (fun _ => some 5) (fun _ => some 2)).lookup "RB" = some 2 ∧
      ("RB" : String) ∈ POSITIONS := by
  have h : ("RB" : String) ∈ POSITIONS := by decide
  have := c6_effective_is_min (fun _ => some 5) (fun _ => some 2) "RB" h
  exact ⟨this.1, h⟩

/-! ### C8 — partial-batch failure during bulk stat sync -/

/-- Helper: when every batch upserts cleanly, the loop reports success with
the full record count and attempts every batch. -/
theorem processBatches_all_ok (err : List StatUpdate → Option String) :
    ∀ (batches : List (List StatUpdate)) (t : Nat),
      (∀ b ∈ batches, err b = none) →
      processBatches err batches t
        = (true, some (t + (batches.map List.length).sum), none, batches) := by
  intro batches
  induction batches with
  | nil => intro t _; simp [processBatches]
  | cons b rest ih =>
    intro t h
    have hb : err b = none := h b (List.mem_cons_self b rest)
    have hrest : ∀ x ∈ rest, err x = none := fun x hx => h x (List.mem_cons_of_mem b hx)
    simp only [processBatches, hb, ih (t + b.length) hrest]
    simp [Nat.add_assoc]

/-- Helper: the first failing batch ends the loop: the batches attempted are
exactly the clean prefix plus the failing batch, and the result is a
failure carrying the error message and no count. -/
theorem processBatches_first_err (err : List StatUpdate → Option String) :
    ∀ (pre : List (List StatUpdate)) (b : List StatUpdate)
      (post : List (List StatUpdate)) (t : Nat) (msg : String),
      (∀ x ∈ pre, err x = none) → err b = some msg →
      processBatches err (pre ++ b :: post) t = (false, none, some msg, pre ++ [b]) := by
  intro pre
  induction pre with
  | nil =>
    intro b post t msg _ hb
    simp [processBatches, hb]
  | cons p rest ih =>
    intro b post t msg hpre hb
    have hp : err p = none := hpre p (List.mem_cons_self p rest)
    have hrest : ∀ x ∈ rest, err x = none := fun x hx => hpre x (List.mem_cons_of_mem p hx)
    simp [processBatches, hp, ih b post (t + p.length) msg hrest hb]

/-- C8 counterexample: a single-record sync whose (only) batch upsert fails.
The loop aborts, but the result carries `success: false` with the error and
no count at all — the count of records written before the failure (here 0)
is not reported, contradicting the claim. -/
theorem c8_counterexample_no_partial_count :
    (updateCurrentWeekStats [(1, ⟨0, 0, 0⟩)] 5 (fun _ => some "db error")).1
      = ⟨false, none, some "db error"⟩ := by
  rfl

/-- C8 (amended): the records are split into `BATCH_SIZE` batches upserted
sequentially; when one batch's upsert fails, no batch after it is attempted
(the attempted batches are the clean prefix plus the failing batch) and the
operation's result is a failure carrying the upsert's error and no
partial-success count — a count is reported only when every batch succeeds,
in which case it is the full record count. -/
theorem c8_batch_failure_aborts (liveStats : List (Nat × StatLine)) (week : Nat)
    (err : List StatUpdate → Option String)
    (pre : List (List StatUpdate)) (b : List StatUpdate) (post : List (List StatUpdate))
    (msg : String)
    (hsplit : chunks (liveStats.map (fun e => StatUpdate.mk e.1 e.2 week)) = pre ++ b :: post)
    (hpre : ∀ x ∈ pre, err x = none) (hb : err b = some msg)
    (hne : liveStats ≠ []) :
    updateCurrentWeekStats liveStats week err = (⟨false, none, some msg⟩, pre ++ [b]) := by
  have hlen : (liveStats.map (fun e => StatUpdate.mk e.1 e.2 week)).length ≠ 0 := by
    simpa using fun h => hne (List.eq_nil_of_length_eq_zero (by simpa using h))
  unfold updateCurrentWeekStats
  simp only [hsplit, hlen, if_neg hlen]
  rw [processBatches_first_err err pre b post 0 msg hpre hb]
  simp

/-- C8 witness: the amended theorem at a one-record sync whose only batch
fails: the result is a bare failure and only that batch was attempted. -/
theorem c8_witness :
    updateCurrentWeekStats [(1, ⟨0, 0, 0⟩)] 5 (fun _ => some "boom")
      = (⟨false, none, some "boom"⟩, [[⟨1, ⟨0, 0, 0⟩, 5⟩]]) := by
  have := c8_batch_failure_aborts [(1, ⟨0, 0, 0⟩)] 5 (fun _ => some "boom")
    [] [⟨1, ⟨0, 0, 0⟩, 5⟩] [] "boom" rfl (by simp) rfl (by simp)
  simpa using this

/-! ### C3 — no way back to pending from final -/

/-- C3 counterexample: starting from a finalized matchup (status `'final'`
locally and in the store, both sides confirmed — exactly how
`finalizeMatchup` leaves it), a single capacity edit already resets the
screen's status to `'pending'`, and a confirm followed by a capacity edit
drives even the persisted status back to `'pending'`. -/
theorem c3_counterexample_final_to_pending :
    finalizedState.status = "final" ∧ finalizedState.db.status = "final" ∧
      (updatePositionCount finalizedState "QB" 1 true).status = "pending" ∧
      (applyOps finalizedState
        [MatchupOp.confirm true, MatchupOp.edit "QB" 1 true]).db.status = "pending" := by
  refine ⟨rfl, rfl, ?_, ?_⟩ <;> rfl

/-- C3 (amended): a single operation applied while the status is `'final'`
(locally and in the store) never writes `'pending'` to the persisted status:
a capacity edit leaves the persisted status `'final'` (although it resets
the screen's local status), a confirmation never produces `'pending'`
(it can produce `'active'` when the other side is confirmed, after which a
further edit can reach `'pending'`), and a finalize is a no-op.  The claimed
invariant holds only per-operation for the persisted status, not for the
screen status and not across operation sequences. -/
theorem c3_single_op_persisted_status (s : ScreenState)
    (h1 : s.status = "final") (h2 : s.db.status = "final")
    (position : String) (increment : Int) (dbOk : Bool) :
    (updatePositionCount s position increment dbOk).db.status = "final" ∧
      (confirmMatchup s dbOk).db.status ≠ "pending" ∧
      finalizeMatchup s dbOk = s := by
  refine ⟨?_, ?_, ?_⟩
  · simp only [updatePositionCount]
    by_cases hneg : (s.mySettings position).getD 0 + increment < 0
    · rw [if_pos hneg]; exact h2
    · rw [if_neg hneg]
      cases hm : s.matchupId with
      | none => exact h2
      | some v =>
        cases dbOk with
        | true => cases hb : s.amIUser1 <;> simp [hb, h1, h2]
        | false => exact h2
  · unfold confirmMatchup
    cases hm : s.matchupId with
    | none => simp [hm, h2]
    | some v =>
      cases dbOk with
      | true =>
        by_cases hc : (if s.amIUser1 then s.user2Confirmed else s.user1Confirmed) = true
        · simp [hm, hc]
        · simp only [hm]
          simp only [Bool.not_eq_true] at hc
          simp [hc, h2]
      | false => simp [hm, h2]
  · unfold finalizeMatchup
    have : s.matchupId = none ∨ s.status ≠ "active" := by
      right; rw [h1]; decide
    simp [this]

/-- C3 witness: the amended per-operation statement evaluated on the
concrete finalized matchup state for an edit, a confirm, and a finalize. -/
theorem c3_witness :
    (updatePositionCount finalizedState "RB" (-1) true).db.status = "final" ∧
      (confirmMatchup finalizedState true).db.status ≠ "pending" ∧
      finalizeMatchup finalizedState true = finalizedState := by
  exact c3_single_op_persisted_status finalizedState rfl rfl "RB" (-1) true

/-! ### C10 — capacity counts never go negative -/

/-- Helper: updating one key of a non-negative settings map with a
non-negative value keeps it non-negative. -/
theorem nonNeg_update {f : Settings} (hf : NonNeg f) {n : Int} (hn : 0 ≤ n)
    (pos : String) : NonNeg (settingsUpdate f pos n) := by
  intro q v hq
  unfold settingsUpdate at hq
  by_cases h : q = pos
  · rw [if_pos h] at hq
    cases hq
    exact hn
  · rw [if_neg h] at hq
    exact hf q v hq

/-- Helper: a lookup in an association list of non-negative values is
non-negative. -/
theorem lookup_nonneg (l : List (String × Int)) (hl : ∀ kv ∈ l, 0 ≤ kv.2) :
    ∀ pos v, l.lookup pos = some v → 0 ≤ v := by
  induction l with
  | nil => intro pos v h; simp [List.lookup] at h
  | cons kv rest ih =>
    intro pos v h
    rw [List.lookup] at h
    rcases hpk : pos == kv.1 with _ | _
    · rw [hpk] at h
      exact ih (fun x hx => hl x (List.mem_cons_of_mem kv hx)) pos v h
    · rw [hpk] at h
      cases h
      exact hl kv (List.mem_cons_self kv rest)

/-- Helper: the default settings map is non-negative. -/
theorem defaultSettings_nonNeg : NonNeg defaultSettings := by
  intro pos v h
  exact lookup_nonneg DEFAULT_SETTINGS (by decide) pos v h

/-- Helper: `updatePositionCount` preserves non-negativity of all four
capacity maps. -/
theorem updatePositionCount_preserves_nonneg (s : ScreenState) (position : String)
    (increment : Int) (dbOk : Bool) (h : NonNegState s) :
    NonNegState (updatePositionCount s position increment dbOk) := by
  obtain ⟨h1, h2, h3, h4⟩ := h
  simp only [updatePositionCount]
  by_cases hneg : (s.mySettings position).getD 0 + increment < 0
  · rw [if_pos hneg]; exact ⟨h1, h2, h3, h4⟩
  · rw [if_neg hneg]
    have hnn : 0 ≤ (s.mySettings position).getD 0 + increment := le_of_not_lt hneg
    cases hm : s.matchupId with
    | none => exact ⟨nonNeg_update h1 hnn position, h2, h3, h4⟩
    | some v =>
      cases dbOk with
      | true =>
        cases hb : s.amIUser1 with
        | true => exact ⟨nonNeg_update h1 hnn position, h2, nonNeg_update h1 hnn position, h4⟩
        | false => exact ⟨nonNeg_update h1 hnn position, h2, h3, nonNeg_update h1 hnn position⟩
      | false => exact ⟨h1, h2, h3, h4⟩

/-- Helper: `confirmMatchup` never touches a settings map. -/
theorem confirmMatchup_preserves_nonneg (s : ScreenState) (dbOk : Bool)
    (h : NonNegState s) : NonNegState (confirmMatchup s dbOk) := by
  obtain ⟨h1, h2, h3, h4⟩ := h
  simp only [confirmMatchup]
  cases hm : s.matchupId with
  | none => exact ⟨h1, h2, h3, h4⟩
  | some v =>
    cases dbOk with
    | true => exact ⟨h1, h2, h3, h4⟩
    | false => exact ⟨h1, h2, h3, h4⟩

/-- Helper: `finalizeMatchup` never touches a settings map. -/
theorem finalizeMatchup_preserves_nonneg (s : ScreenState) (dbOk : Bool)
    (h : NonNegState s) : NonNegState (finalizeMatchup s dbOk) := by
  obtain ⟨h1, h2, h3, h4⟩ := h
  simp only [finalizeMatchup]
  by_cases hg : s.matchupId = none ∨ s.status ≠ "active"
  · rw [if_pos hg]; exact ⟨h1, h2, h3, h4⟩
  · rw [if_neg hg]
    cases dbOk with
    | true => exact ⟨h1, h2, h3, h4⟩
    | false => exact ⟨h1, h2, h3, h4⟩

/-- Helper: any sequence of screen operations preserves non-negativity. -/
theorem applyOps_preserves_nonneg (ops : List MatchupOp) :
    ∀ s : ScreenState, NonNegState s → NonNegState (applyOps s ops) := by
  induction ops with
  | nil => intro s h; exact h
  | cons op rest ih =>
    intro s h
    cases op with
    | edit position increment dbOk =>
      exact ih _ (updatePositionCount_preserves_nonneg s position increment dbOk h)
    | confirm dbOk => exact ih _ (confirmMatchup_preserves_nonneg s dbOk h)
    | finalize dbOk => exact ih _ (finalizeMatchup_preserves_nonneg s dbOk h)

/-- C10: `updatePositionCount` is a strict no-op (neither the local state
nor the persisted row changes) whenever the requested change would take the
position below zero; the default settings are non-negative; and every
sequence of screen operations starting from any state whose four capacity
maps are non-negative (in particular the default-initialized state) keeps
every stored capacity value non-negative. -/
theorem c10_settings_stay_nonneg :
    (∀ (s : ScreenState) (position : String) (increment : Int) (dbOk : Bool),
        (s.mySettings position).getD 0 + increment < 0 →
          updatePositionCount s position increment dbOk = s) ∧
      NonNeg defaultSettings ∧
      ∀ (s : ScreenState) (ops : List MatchupOp),
        NonNegState s → NonNegState (applyOps s ops) := by
  refine ⟨?_, defaultSettings_nonNeg, fun s ops h => applyOps_preserves_nonneg ops s h⟩
  intro s position increment dbOk h
  simp only [updatePositionCount]
  rw [if_pos h]

/-- C10 witness: the no-op clause at a concrete state (QB count 1,
decrement by 2 rejected) and the invariant along a concrete operation
sequence from the finalized example state, whose maps are all constantly 1. -/
theorem c10_witness :
    updatePositionCount finalizedState "QB" (-2) true = finalizedState ∧
      NonNegState (applyOps finalizedState
        [MatchupOp.edit "QB" 1 true, MatchupOp.confirm true, MatchupOp.edit "QB" (-1) true]) := by
  constructor
  · exact c10_settings_stay_nonneg.1 finalizedState "QB" (-2) true (by decide)
  · refine c10_settings_stay_nonneg.2.2 finalizedState _ ?_
    refine ⟨?_, ?_, ?_, ?_⟩ <;> exact fun pos v h => by cases h; decide

/-! ### C9 — a missing player record degrades the rest of the category -/

/-- Helper: once the top available pick of either pool resolves to no player
record, every remaining slot is emitted as an empty pair for both sides and
the `assigned` set never changes again — the loop never advances a pool in
this branch. -/
theorem distLoop_dead_head (user1Rankings user2Rankings : List Nat)
    (playerMap : Nat → Option Player) (position formatKey : String) (currentWeek : Nat)
    (poolA poolB : List Nat)
    (h : poolA.head?.bind playerMap = none ∨ poolB.head?.bind playerMap = none) :
    ∀ (rem fuel : Nat) (assigned : List Nat), rem ≤ fuel →
      distLoop user1Rankings user2Rankings playerMap position formatKey currentWeek
          fuel poolA poolB assigned rem
        = (List.replicate rem (emptySlot position),
           List.replicate rem (emptySlot position), assigned) := by
  intro rem
  induction rem with
  | zero =>
    intro fuel assigned _
    cases fuel <;> simp [distLoop]
  | succ r ih =>
    intro fuel assigned hle
    cases fuel with
    | zero => omega
    | succ f =>
      have hrec := ih f assigned (by omega)
      rcases h with hA | hB
      · cases hBv : poolB.head?.bind playerMap <;>
          simp [distLoop, hA, hBv, hrec, List.replicate_succ]
      · cases hAv : poolA.head?.bind playerMap with
        | none => simp [distLoop, hAv, hB, hrec, List.replicate_succ]
        | some p => simp [distLoop, hAv, hB, hrec, List.replicate_succ]

/-- C9: when the first not-yet-assigned id of either side's pool has no
record in the supplied player map, `distributePosition` emits every slot of
the category as an empty pair for both sides and returns the `assigned` set
unchanged — in particular the other side's available top pick is never
consumed or marked assigned, even when ids further down either pool do have
records. -/
theorem c9_missing_record_all_empty (user1Rankings user2Rankings : List Nat)
    (playerMap : Nat → Option Player) (assigned : List Nat) (slotCount : Nat)
    (position scoringType : String) (currentWeek : Nat)
    (h : (∃ topA, (user1Rankings.filter (fun i => !(decide (i ∈ assigned)))).head? = some topA
            ∧ playerMap topA = none)
       ∨ (∃ topB, (user2Rankings.filter (fun i => !(decide (i ∈ assigned)))).head? = some topB
            ∧ playerMap topB = none)) :
    distributePosition user1Rankings user2Rankings playerMap assigned slotCount
        position scoringType currentWeek
      = (List.replicate slotCount (emptySlot position),
         List.replicate slotCount (emptySlot position), assigned) := by
  have hd : (user1Rankings.filter (fun i => !(decide (i ∈ assigned)))).head?.bind playerMap = none
      ∨ (user2Rankings.filter (fun i => !(decide (i ∈ assigned)))).head?.bind playerMap = none := by
    rcases h with ⟨topA, h1, h2⟩ | ⟨topB, h1, h2⟩
    · left; rw [h1]; exact h2
    · right; rw [h1]; exact h2
  unfold distributePosition
  exact distLoop_dead_head _ _ _ _ _ _ _ _ hd slotCount _ assigned (by omega)

/-- C9 witness: side A ranks only id 7, which has no record; side B's id 8
does have a record, yet both sides get two empty slots and id 8 is neither
assigned nor consumed. -/
theorem c9_witness :
    distributePosition [7] [8] (buildPlayerMap [⟨8, none, none, none⟩]) [] 2 "WR" "STD" 5
      = ([emptySlot "WR", emptySlot "WR"], [emptySlot "WR", emptySlot "WR"], []) := by
  have := c9_missing_record_all_empty [7] [8] (buildPlayerMap [⟨8, none, none, none⟩])
    [] 2 "WR" "STD" 5 (Or.inl ⟨7, rfl, rfl⟩)
  simpa using this

/-! ### C4 — the distribution loop terminates with exactly `slotCount` slots -/

/-- Helper: filtering away the value at the head of a list strictly shrinks
it. -/
theorem filter_ne_head_length_lt {pool : List Nat} {h : Nat} (hh : pool.head? = some h) :
    (pool.filter (fun i => !(i == h))).length < pool.length := by
  cases pool with
  | nil => cases hh
  | cons a t =>
    have ha : a = h := by simpa using hh
    have hredux : List.filter (fun i => !(i == h)) (a :: t)
        = List.filter (fun i => !(i == h)) t := by
      simp [List.filter_cons, ha]
    rw [hredux]
    simpa using Nat.lt_succ_of_le (List.length_filter_le (fun i => !(i == h)) t)

/-- Helper: filtering away the head value (and possibly another) strictly
shrinks a list. -/
theorem filter_ne2_head_length_lt {pool : List Nat} {a b : Nat} (hh : pool.head? = some a) :
    (pool.filter (fun i => !(i == a) && !(i == b))).length < pool.length := by
  cases pool with
  | nil => cases hh
  | cons x t =>
    have hx : x = a := by simpa using hh
    have hredux : List.filter (fun i => !(i == a) && !(i == b)) (x :: t)
        = List.filter (fun i => !(i == a) && !(i == b)) t := by
      simp [List.filter_cons, hx]
    rw [hredux]
    simpa using Nat.lt_succ_of_le (List.length_filter_le (fun i => !(i == a) && !(i == b)) t)

/-- Helper: a successful `head?.bind playerMap` names the head id and its
record. -/
theorem head_bind_some {pool : List Nat} {playerMap : Nat → Option Player} {p : Player}
    (h : pool.head?.bind playerMap = some p) :
    ∃ hd, pool.head? = some hd ∧ playerMap hd = some p := by
  cases hv : pool.head? with
  | none => rw [hv] at h; cases h
  | some hd => exact ⟨hd, rfl, by rw [hv] at h; simpa using h⟩

/-- Helper: for an id-consistent player map, one more unit of fuel beyond
`remaining + poolA.length` never changes the result of the distribution
loop: every iteration either consumes one remaining slot or strictly
shrinks pool A. -/
theorem distLoop_fuel_succ (user1Rankings user2Rankings : List Nat)
    (playerMap : Nat → Option Player) (position formatKey : String) (currentWeek : Nat)
    (hpm : ConsistentMap playerMap) :
    ∀ (fuel : Nat) (poolA poolB assigned : List Nat) (rem : Nat),
      rem + poolA.length ≤ fuel →
      distLoop user1Rankings user2Rankings playerMap position formatKey currentWeek
          (fuel + 1) poolA poolB assigned rem
        = distLoop user1Rankings user2Rankings playerMap position formatKey currentWeek
          fuel poolA poolB assigned rem := by
  intro fuel
  induction fuel with
  | zero =>
    intro poolA poolB assigned rem hle
    have : rem = 0 := by omega
    subst this
    simp [distLoop]
  | succ f ih =>
    intro poolA poolB assigned rem hle
    cases rem with
    | zero => simp [distLoop]
    | succ r =>
      cases hA : poolA.head?.bind playerMap with
      | none =>
        cases hB : poolB.head?.bind playerMap with
        | none =>
          simp only [distLoop, hA, hB]
          rw [ih poolA poolB assigned r (by omega)]
        | some pb =>
          simp only [distLoop, hA, hB]
          rw [ih poolA poolB assigned r (by omega)]
      | some pa =>
        obtain ⟨hd, hhd, hpmhd⟩ := head_bind_some hA
        have hid2 : pa.id = hd := hpm hd pa hpmhd
        cases hB : poolB.head?.bind playerMap with
        | none =>
          simp only [distLoop, hA, hB]
          rw [ih poolA poolB assigned r (by omega)]
        | some pb =>
          by_cases hid : pa.id = pb.id
          · simp only [distLoop, hA, hB, if_pos hid]
            have hlt : (poolA.filter (fun i => !(i == pa.id))).length < poolA.length := by
              rw [hid2]; exact filter_ne_head_length_lt hhd
            exact ih _ _ _ (r + 1) (by omega)
          · simp only [distLoop, hA, hB, if_neg hid]
            have hlt : (poolA.filter (fun i => !(i == pa.id) && !(i == pb.id))).length
                < poolA.length := by
              rw [hid2]; exact filter_ne2_head_length_lt hhd
            rw [ih _ _ _ r (by omega)]

/-- Helper: adding any amount of fuel beyond `remaining + poolA.length`
never changes the result — the loop has terminated by then. -/
theorem distLoop_fuel_add (user1Rankings user2Rankings : List Nat)
    (playerMap : Nat → Option Player) (position formatKey : String) (currentWeek : Nat)
    (hpm : ConsistentMap playerMap) :
    ∀ (k fuel : Nat) (poolA poolB assigned : List Nat) (rem : Nat),
      rem + poolA.length ≤ fuel →
      distLoop user1Rankings user2Rankings playerMap position formatKey currentWeek
          (fuel + k) poolA poolB assigned rem
        = distLoop user1Rankings user2Rankings playerMap position formatKey currentWeek
          fuel poolA poolB assigned rem := by
  intro k
  induction k with
  | zero => intro fuel poolA poolB assigned rem _; rfl
  | succ j ih =>
    intro fuel poolA poolB assigned rem hle
    have h1 : fuel + (j + 1) = (fuel + j) + 1 := by omega
    rw [h1, distLoop_fuel_succ user1Rankings user2Rankings playerMap position formatKey
      currentWeek hpm (fuel + j) poolA poolB assigned rem (by omega)]
    exact ih fuel poolA poolB assigned rem hle

/-- Helper: with fuel at least `remaining + poolA.length`, the loop emits
exactly `remaining` slots on each side. -/
theorem distLoop_length (user1Rankings user2Rankings : List Nat)
    (playerMap : Nat → Option Player) (position formatKey : String) (currentWeek : Nat)
    (hpm : ConsistentMap playerMap) :
    ∀ (fuel : Nat) (poolA poolB assigned : List Nat) (rem : Nat),
      rem + poolA.length ≤ fuel →
      (distLoop user1Rankings user2Rankings playerMap position formatKey currentWeek
          fuel poolA poolB assigned rem).1.length = rem ∧
      (distLoop user1Rankings user2Rankings playerMap position formatKey currentWeek
          fuel poolA poolB assigned rem).2.1.length = rem := by
  intro fuel
  induction fuel with
  | zero =>
    intro poolA poolB assigned rem hle
    have : rem = 0 := by omega
    subst this
    simp [distLoop]
  | succ f ih =>
    intro poolA poolB assigned rem hle
    cases rem with
    | zero => simp [distLoop]
    | succ r =>
      cases hA : poolA.head?.bind playerMap with
      | none =>
        cases hB : poolB.head?.bind playerMap with
        | none =>
          have hr := ih poolA poolB assigned r (by omega)
          simp only [distLoop, hA, hB, List.length_cons]
          omega
        | some pb =>
          have hr := ih poolA poolB assigned r (by omega)
          simp only [distLoop, hA, hB, List.length_cons]
          omega
      | some pa =>
        obtain ⟨hd, hhd, hpmhd⟩ := head_bind_some hA
        have hid2 : pa.id = hd := hpm hd pa hpmhd
        cases hB : poolB.head?.bind playerMap with
        | none =>
          have hr := ih poolA poolB assigned r (by omega)
          simp only [distLoop, hA, hB, List.length_cons]
          omega
        | some pb =>
          by_cases hid : pa.id = pb.id
          · have hlt : (poolA.filter (fun i => !(i == pa.id))).length < poolA.length := by
              rw [hid2]; exact filter_ne_head_length_lt hhd
            have hr := ih (poolA.filter (fun i => !(i == pa.id)))
              (poolB.filter (fun i => !(i == pb.id))) (setAdd assigned pa.id) (r + 1)
              (by omega)
            simp only [distLoop, hA, hB, if_pos hid]
            exact hr
          · have hlt : (poolA.filter (fun i => !(i == pa.id) && !(i == pb.id))).length
                < poolA.length := by
              rw [hid2]; exact filter_ne2_head_length_lt hhd
            have hr := ih (poolA.filter (fun i => !(i == pa.id) && !(i == pb.id)))
              (poolB.filter (fun i => !(i == pb.id) && !(i == pa.id)))
              (setAdd (setAdd assigned pa.id) pb.id) r (by omega)
            simp only [distLoop, hA, hB, if_neg hid, List.length_cons]
            omega

/-- Helper: a player map keyed by `player.id`, as `distributeMatchupLineups`
builds it, is id-consistent. -/
theorem buildPlayerMap_consistent (players : List Player) :
    ConsistentMap (buildPlayerMap players) := by
  intro k p h
  unfold buildPlayerMap at h
  have := List.find?_some h
  simpa using this

/-- C4: for an id-consistent player snapshot, `distributePosition`
terminates — its loop result is stable at fuel
`slotCount + poolA.length` (every iteration either consumes one slot or
strictly shrinks pool A) — and returns exactly `slotCount` slots for each
side; and when either filtered pool is exhausted from the start, every slot
is emitted as an empty pair that still counts toward capacity. -/
theorem c4_distributePosition_terminates (user1Rankings user2Rankings : List Nat)
    (playerMap : Nat → Option Player) (assigned : List Nat) (slotCount : Nat)
    (position scoringType : String) (currentWeek : Nat)
    (hpm : ConsistentMap playerMap) :
    (∀ fuel,
        slotCount + (user1Rankings.filter (fun i => !(decide (i ∈ assigned)))).length ≤ fuel →
        distLoop user1Rankings user2Rankings playerMap position scoringType.toLower currentWeek
            fuel (user1Rankings.filter (fun i => !(decide (i ∈ assigned))))
            (user2Rankings.filter (fun i => !(decide (i ∈ assigned)))) assigned slotCount
          = distributePosition user1Rankings user2Rankings playerMap assigned slotCount
              position scoringType currentWeek) ∧
      (distributePosition user1Rankings user2Rankings playerMap assigned slotCount
          position scoringType currentWeek).1.length = slotCount ∧
      (distributePosition user1Rankings user2Rankings playerMap assigned slotCount
          position scoringType currentWeek).2.1.length = slotCount ∧
      ((user1Rankings.filter (fun i => !(decide (i ∈ assigned))) = []
          ∨ user2Rankings.filter (fun i => !(decide (i ∈ assigned))) = []) →
        distributePosition user1Rankings user2Rankings playerMap assigned slotCount
            position scoringType currentWeek
          = (List.replicate slotCount (emptySlot position),
             List.replicate slotCount (emptySlot position), assigned)) := by
  have hb : distributePosition user1Rankings user2Rankings playerMap assigned slotCount
      position scoringType currentWeek
    = distLoop user1Rankings user2Rankings playerMap position scoringType.toLower currentWeek
        (slotCount + (user1Rankings.filter (fun i => !(decide (i ∈ assigned)))).length)
        (user1Rankings.filter (fun i => !(decide (i ∈ assigned))))
        (user2Rankings.filter (fun i => !(decide (i ∈ assigned)))) assigned slotCount := rfl
  refine ⟨?_, ?_, ?_, ?_⟩
  · intro fuel hf
    rw [hb]
    have hk : fuel = (slotCount
        + (user1Rankings.filter (fun i => !(decide (i ∈ assigned)))).length)
        + (fuel - (slotCount
        + (user1Rankings.filter (fun i => !(decide (i ∈ assigned)))).length)) := by omega
    rw [hk]
    exact distLoop_fuel_add user1Rankings user2Rankings playerMap position
      scoringType.toLower currentWeek hpm _ _ _ _ _ _ (by omega)
  · rw [hb]
    exact (distLoop_length user1Rankings user2Rankings playerMap position
      scoringType.toLower currentWeek hpm _ _ _ _ _ (by omega)).1
  · rw [hb]
    exact (distLoop_length user1Rankings user2Rankings playerMap position
      scoringType.toLower currentWeek hpm _ _ _ _ _ (by omega)).2
  · intro hempty
    rw [hb]
    have hd : (user1Rankings.filter (fun i => !(decide (i ∈ assigned)))).head?.bind playerMap
        = none
      ∨ (user2Rankings.filter (fun i => !(decide (i ∈ assigned)))).head?.bind playerMap
        = none := by
      rcases hempty with hB | hB <;> rw [hB] <;> [left; right] <;> rfl
    exact distLoop_dead_head _ _ _ _ _ _ _ _ hd slotCount _ assigned (by omega)

/-- C4 witness: a concrete snapshot with a conflict (both sides rank id 1
first) still yields exactly two slots per side, and the loop result with
generous extra fuel matches `distributePosition`. -/
theorem c4_witness :
    (distributePosition [1, 2] [1, 3]
        (buildPlayerMap [⟨1, none, none, none⟩, ⟨2, none, none, none⟩, ⟨3, none, none, none⟩])
        [] 2 "QB" "STD" 5).1.length = 2 ∧
      (distributePosition [1, 2] [1, 3]
        (buildPlayerMap [⟨1, none, none, none⟩, ⟨2, none, none, none⟩, ⟨3, none, none, none⟩])
        [] 2 "QB" "STD" 5).2.1.length = 2 := by
  have h := c4_distributePosition_terminates [1, 2] [1, 3]
    (buildPlayerMap [⟨1, none, none, none⟩, ⟨2, none, none, none⟩, ⟨3, none, none, none⟩])
    [] 2 "QB" "STD" 5
    (buildPlayerMap_consistent [⟨1, none, none, none⟩, ⟨2, none, none, none⟩, ⟨3, none, none, none⟩])
  exact ⟨h.2.1, h.2.2.1⟩

/-! ### C5 — the conflict case: burn, fill, degrade -/

/-- C5: with side A ranking `[X, Y]`, side B ranking `[X, Z]`, capacity 2,
and `X`, `Y`, `Z` three distinct unassigned ids with records, the first
iteration burns `X` (it is marked assigned, removed from both pools, fills
no slot and consumes no capacity), the first emitted slot pairs `Y` (rank 2
of side A's list) with `Z` (rank 2 of side B's list), and the second slot is
an empty pair, so both sides receive exactly two slots. -/
theorem c5_conflict_burn (X Y Z : Nat) (pX pY pZ : Player)
    (playerMap : Nat → Option Player) (assigned : List Nat)
    (position scoringType : String) (currentWeek : Nat)
    (hX : playerMap X = some pX) (hY : playerMap Y = some pY) (hZ : playerMap Z = some pZ)
    (hidX : pX.id = X) (hidY : pY.id = Y) (hidZ : pZ.id = Z)
    (hXY : X ≠ Y) (hXZ : X ≠ Z) (hYZ : Y ≠ Z)
    (haX : X ∉ assigned) (haY : Y ∉ assigned) (haZ : Z ∉ assigned) :
    distributePosition [X, Y] [X, Z] playerMap assigned 2 position scoringType currentWeek
        = ([filledSlot position pY [X, Y] scoringType.toLower currentWeek,
            emptySlot position],
           [filledSlot position pZ [X, Z] scoringType.toLower currentWeek,
            emptySlot position],
           setAdd (setAdd (setAdd assigned X) Y) Z) ∧
      (filledSlot position pY [X, Y] scoringType.toLower currentWeek).rank = some 2 ∧
      (filledSlot position pZ [X, Z] scoringType.toLower currentWeek).rank = some 2 ∧
      X ∈ setAdd (setAdd (setAdd assigned X) Y) Z := by
  have hYX : Y ≠ X := Ne.symm hXY
  have hZX : Z ≠ X := Ne.symm hXZ
  have hZY : Z ≠ Y := Ne.symm hYZ
  refine ⟨?_, ?_, ?_, ?_⟩
  · simp [distributePosition, distLoop, hX, hY, hZ, hidX, hidY, hidZ,
      hXY, hXZ, hYZ, hYX, hZX, hZY, haX, haY, haZ, setAdd]
  · simp [filledSlot, jsIndexOf, hidY, List.findIdx?_cons, hXY]
  · simp [filledSlot, jsIndexOf, hidZ, List.findIdx?_cons, hXZ]
  · simp [setAdd, haX, haY, haZ, hXY, hXZ, hYZ, hYX, hZX, hZY]

/-- C5 witness: the conflict scenario at ids 1, 2, 3 with a concrete
snapshot: the burn of id 1, the 2-vs-3 slot at rank 2, and the final empty
pair. -/
theorem c5_witness :
    distributePosition [1, 2] [1, 3]
        (buildPlayerMap [⟨1, none, none, none⟩, ⟨2, none, none, none⟩, ⟨3, none, none, none⟩])
        [] 2 "RB" "PPR" 7
      = ([filledSlot "RB" ⟨2, none, none, none⟩ [1, 2] "PPR".toLower 7, emptySlot "RB"],
         [filledSlot "RB" ⟨3, none, none, none⟩ [1, 3] "PPR".toLower 7, emptySlot "RB"],
         setAdd (setAdd (setAdd [] 1) 2) 3) := by
  exact (c5_conflict_burn 1 2 3 ⟨1, none, none, none⟩ ⟨2, none, none, none⟩
    ⟨3, none, none, none⟩
    (buildPlayerMap [⟨1, none, none, none⟩, ⟨2, none, none, none⟩, ⟨3, none, none, none⟩])
    [] "RB" "PPR" 7 rfl rfl rfl rfl rfl rfl (by decide) (by decide) (by decide)
    (by simp) (by simp) (by simp)).1

/-! ### C1 — no entity fills two slots across the whole lineup -/

/-- Helper: membership in a JS-set after `add`. -/
theorem mem_setAdd {s : List Nat} {x y : Nat} : x ∈ setAdd s y ↔ x ∈ s ∨ x = y := by
  by_cases h : y ∈ s
  · simp only [setAdd, if_pos h]
    constructor
    · exact fun hx => Or.inl hx
    · rintro (hx | rfl)
      · exact hx
      · exact h
  · simp only [setAdd, if_neg h]
    simp [List.mem_append]

/-- Helper: a filled slot contributes its player id to `filledIds`. -/
theorem filledIds_cons_filled (position : String) (p : Player) (orig : List Nat)
    (formatKey : String) (currentWeek : Nat) (rest : List Slot) :
    filledIds (filledSlot position p orig formatKey currentWeek :: rest)
      = p.id :: filledIds rest := by
  simp [filledIds, filledSlot]

/-- Helper: an empty slot contributes nothing to `filledIds`. -/
theorem filledIds_cons_empty (position : String) (rest : List Slot) :
    filledIds (emptySlot position :: rest) = filledIds rest := by
  simp [filledIds, emptySlot]

/-- Helper: the slot-filling loop only ever fills a slot with a player whose
id it simultaneously adds to the `assigned` set, and it never picks an
already-assigned id: provided both pools avoid `assigned`, the filled ids of
the two produced slot lists are duplicate-free, disjoint from `assigned`,
and contained in the final set, which extends `assigned`. -/
theorem distLoop_inv (user1Rankings user2Rankings : List Nat)
    (playerMap : Nat → Option Player) (position formatKey : String) (currentWeek : Nat)
    (hpm : ConsistentMap playerMap) :
    ∀ (fuel : Nat) (poolA poolB assigned : List Nat) (rem : Nat),
      (∀ i ∈ poolA, i ∉ assigned) → (∀ i ∈ poolB, i ∉ assigned) →
      (∀ x ∈ assigned, x ∈ (distLoop user1Rankings user2Rankings playerMap position
          formatKey currentWeek fuel poolA poolB assigned rem).2.2) ∧
      (filledIds (distLoop user1Rankings user2Rankings playerMap position formatKey
            currentWeek fuel poolA poolB assigned rem).1
        ++ filledIds (distLoop user1Rankings user2Rankings playerMap position formatKey
            currentWeek fuel poolA poolB assigned rem).2.1).Nodup ∧
      (∀ x ∈ filledIds (distLoop user1Rankings user2Rankings playerMap position formatKey
            currentWeek fuel poolA poolB assigned rem).1
          ++ filledIds (distLoop user1Rankings user2Rankings playerMap position formatKey
            currentWeek fuel poolA poolB assigned rem).2.1,
        x ∉ assigned ∧ x ∈ (distLoop user1Rankings user2Rankings playerMap position
          formatKey currentWeek fuel poolA poolB assigned rem).2.2) := by
  intro fuel
  induction fuel with
  | zero =>
    intro poolA poolB assigned rem hpa hpb
    simp [distLoop, filledIds]
  | succ f ih =>
    intro poolA poolB assigned rem hpa hpb
    cases rem with
    | zero => simp [distLoop, filledIds]
    | succ r =>
      cases hA : poolA.head?.bind playerMap with
      | none =>
        cases hB : poolB.head?.bind playerMap with
        | none =>
          have IH := ih poolA poolB assigned r hpa hpb
          simp only [distLoop, hA, hB]
          simpa [filledIds_cons_empty] using IH
        | some pb =>
          have IH := ih poolA poolB assigned r hpa hpb
          simp only [distLoop, hA, hB]
          simpa [filledIds_cons_empty] using IH
      | some pa =>
        obtain ⟨hdA, hhdA, hpmA⟩ := head_bind_some hA
        have hidA : pa.id = hdA := hpm _ _ hpmA
        have hmemA : pa.id ∈ poolA := by
          rw [hidA]; exact List.mem_of_mem_head? (Option.mem_def.mpr hhdA)
        have hnaA : pa.id ∉ assigned := hpa _ hmemA
        cases hB : poolB.head?.bind playerMap with
        | none =>
          have IH := ih poolA poolB assigned r hpa hpb
          simp only [distLoop, hA, hB]
          simpa [filledIds_cons_empty] using IH
        | some pb =>
          obtain ⟨hdB, hhdB, hpmB⟩ := head_bind_some hB
          have hidB : pb.id = hdB := hpm _ _ hpmB
          have hmemB : pb.id ∈ poolB := by
            rw [hidB]; exact List.mem_of_mem_head? (Option.mem_def.mpr hhdB)
          have hnaB : pb.id ∉ assigned := hpb _ hmemB
          by_cases hid : pa.id = pb.id
          · -- burn: the conflicting id joins `assigned`, both pools shrink
            have hpa1 : ∀ i ∈ poolA.filter (fun i => !(i == pa.id)),
                i ∉ setAdd assigned pa.id := by
              intro i hi
              rw [List.mem_filter] at hi
              obtain ⟨hi1, hi2⟩ := hi
              simp only [Bool.not_eq_eq_eq_not, Bool.not_true, beq_eq_false_iff_ne] at hi2
              rw [mem_setAdd]
              push_neg
              exact ⟨hpa i hi1, hi2⟩
            have hpb1 : ∀ i ∈ poolB.filter (fun i => !(i == pb.id)),
                i ∉ setAdd assigned pa.id := by
              intro i hi
              rw [List.mem_filter] at hi
              obtain ⟨hi1, hi2⟩ := hi
              simp only [Bool.not_eq_eq_eq_not, Bool.not_true, beq_eq_false_iff_ne] at hi2
              rw [mem_setAdd]
              push_neg
              exact ⟨hpb i hi1, by rw [← hid] at hi2; exact hi2⟩
            have IH := ih _ _ _ (r + 1) hpa1 hpb1
            simp only [distLoop, hA, hB, if_pos hid]
            refine ⟨?_, IH.2.1, ?_⟩
            · intro x hx
              exact IH.1 x (mem_setAdd.mpr (Or.inl hx))
            · intro x hx
              obtain ⟨hx1, hx2⟩ := IH.2.2 x hx
              exact ⟨fun hc => hx1 (mem_setAdd.mpr (Or.inl hc)), hx2⟩
          · -- assignment: both ids join `assigned` and head both slot lists
            have hmain : ∀ i, i ∈ assigned ∨ i = pa.id ∨ i = pb.id →
                i ∈ setAdd (setAdd assigned pa.id) pb.id := by
              intro i hi
              rcases hi with hi | hi | hi
              · exact mem_setAdd.mpr (Or.inl (mem_setAdd.mpr (Or.inl hi)))
              · exact mem_setAdd.mpr (Or.inl (mem_setAdd.mpr (Or.inr hi)))
              · exact mem_setAdd.mpr (Or.inr hi)
            have hpa2 : ∀ i ∈ poolA.filter (fun i => !(i == pa.id) && !(i == pb.id)),
                i ∉ setAdd (setAdd assigned pa.id) pb.id := by
              intro i hi
              rw [List.mem_filter] at hi
              obtain ⟨hi1, hi2⟩ := hi
              simp only [Bool.and_eq_true, Bool.not_eq_eq_eq_not, Bool.not_true,
                beq_eq_false_iff_ne] at hi2
              rw [mem_setAdd, mem_setAdd]
              push_neg
              exact ⟨⟨hpa i hi1, hi2.1⟩, hi2.2⟩
            have hpb2 : ∀ i ∈ poolB.filter (fun i => !(i == pb.id) && !(i == pa.id)),
                i ∉ setAdd (setAdd assigned pa.id) pb.id := by
              intro i hi
              rw [List.mem_filter] at hi
              obtain ⟨hi1, hi2⟩ := hi
              simp only [Bool.and_eq_true, Bool.not_eq_eq_eq_not, Bool.not_true,
                beq_eq_false_iff_ne] at hi2
              rw [mem_setAdd, mem_setAdd]
              push_neg
              exact ⟨⟨hpb i hi1, hi2.2⟩, hi2.1⟩
            have IH := ih _ _ _ r hpa2 hpb2
            simp only [distLoop, hA, hB, if_neg hid, filledIds_cons_filled]
            have hfresh : ∀ x ∈ filledIds (distLoop user1Rankings user2Rankings playerMap
                  position formatKey currentWeek f
                  (poolA.filter (fun i => !(i == pa.id) && !(i == pb.id)))
                  (poolB.filter (fun i => !(i == pb.id) && !(i == pa.id)))
                  (setAdd (setAdd assigned pa.id) pb.id) r).1
                ++ filledIds (distLoop user1Rankings user2Rankings playerMap
                  position formatKey currentWeek f
                  (poolA.filter (fun i => !(i == pa.id) && !(i == pb.id)))
                  (poolB.filter (fun i => !(i == pb.id) && !(i == pa.id)))
                  (setAdd (setAdd assigned pa.id) pb.id) r).2.1,
                x ≠ pa.id ∧ x ≠ pb.id := by
              intro x hx
              have h1 := (IH.2.2 x hx).1
              constructor
              · intro hc; exact h1 (hmain x (by rw [hc]; exact Or.inr (Or.inl rfl)))
              · intro hc; exact h1 (hmain x (by rw [hc]; exact Or.inr (Or.inr rfl)))
            refine ⟨?_, ?_, ?_⟩
            · intro x hx
              exact IH.1 x (hmain x (Or.inl hx))
            · rw [List.cons_append, List.nodup_cons]
              constructor
              · intro hc
                rcases List.mem_append.mp hc with h1 | h1
                · exact (hfresh pa.id (List.mem_append.mpr (Or.inl h1))).1 rfl
                · rcases List.mem_cons.mp h1 with h2 | h2
                  · exact hid h2
                  · exact (hfresh pa.id (List.mem_append.mpr (Or.inr h2))).1 rfl
              · have hnd : (pb.id :: (filledIds (distLoop user1Rankings user2Rankings
                    playerMap position formatKey currentWeek f
                    (poolA.filter (fun i => !(i == pa.id) && !(i == pb.id)))
                    (poolB.filter (fun i => !(i == pb.id) && !(i == pa.id)))
                    (setAdd (setAdd assigned pa.id) pb.id) r).1
                    ++ filledIds (distLoop user1Rankings user2Rankings playerMap
                    position formatKey currentWeek f
                    (poolA.filter (fun i => !(i == pa.id) && !(i == pb.id)))
                    (poolB.filter (fun i => !(i == pb.id) && !(i == pa.id)))
                    (setAdd (setAdd assigned pa.id) pb.id) r).2.1)).Nodup := by
                  rw [List.nodup_cons]
                  exact ⟨fun hc => (hfresh pb.id hc).2 rfl, IH.2.1⟩
                exact List.perm_middle.symm.nodup hnd
            · intro x hx
              rcases List.mem_cons.mp hx with h1 | h1
              · subst h1
                exact ⟨hnaA, IH.1 _ (hmain _ (Or.inr (Or.inl rfl)))⟩
              · rcases List.mem_append.mp h1 with h2 | h2
                · have h3 := IH.2.2 x (List.mem_append.mpr (Or.inl h2))
                  exact ⟨fun hc => h3.1 (hmain x (Or.inl hc)), h3.2⟩
                · rcases List.mem_cons.mp h2 with h3 | h3
                  · subst h3
                    exact ⟨hnaB, IH.1 _ (hmain _ (Or.inr (Or.inr rfl)))⟩
                  · have h4 := IH.2.2 x (List.mem_append.mpr (Or.inr h3))
                    exact ⟨fun hc => h4.1 (hmain x (Or.inl hc)), h4.2⟩

/-- Helper: `distributePosition` inherits the loop invariant: its filled ids
are duplicate-free, avoid the incoming `assigned` set, and land in the
returned set, which extends the incoming one. -/
theorem distributePosition_inv (user1Rankings user2Rankings : List Nat)
    (playerMap : Nat → Option Player) (assigned : List Nat) (slotCount : Nat)
    (position scoringType : String) (currentWeek : Nat)
    (hpm : ConsistentMap playerMap) :
    (∀ x ∈ assigned, x ∈ (distributePosition user1Rankings user2Rankings playerMap
        assigned slotCount position scoringType currentWeek).2.2) ∧
    (filledIds (distributePosition user1Rankings user2Rankings playerMap assigned
          slotCount position scoringType currentWeek).1
      ++ filledIds (distributePosition user1Rankings user2Rankings playerMap assigned
          slotCount position scoringType currentWeek).2.1).Nodup ∧
    (∀ x ∈ filledIds (distributePosition user1Rankings user2Rankings playerMap assigned
          slotCount position scoringType currentWeek).1
        ++ filledIds (distributePosition user1Rankings user2Rankings playerMap assigned
          slotCount position scoringType currentWeek).2.1,
      x ∉ assigned ∧ x ∈ (distributePosition user1Rankings user2Rankings playerMap
        assigned slotCount position scoringType currentWeek).2.2) := by
  have hfa : ∀ i ∈ user1Rankings.filter (fun i => !(decide (i ∈ assigned))), i ∉ assigned := by
    intro i hi
    rw [List.mem_filter] at hi
    simpa using hi.2
  have hfb : ∀ i ∈ user2Rankings.filter (fun i => !(decide (i ∈ assigned))), i ∉ assigned := by
    intro i hi
    rw [List.mem_filter] at hi
    simpa using hi.2
  exact distLoop_inv user1Rankings user2Rankings playerMap position scoringType.toLower
    currentWeek hpm _ _ _ assigned slotCount hfa hfb

/-- Helper: `filledIds` distributes over list append. -/
theorem filledIds_append (s t : List Slot) :
    filledIds (s ++ t) = filledIds s ++ filledIds t := by
  simp [filledIds]

/-- Helper: regrouping two interleaved pairs of lists is a permutation. -/
theorem append_regroup_perm {a : Type} (u v w x : List a) :
    ((u ++ v) ++ (w ++ x)).Perm ((u ++ w) ++ (v ++ x)) := by
  have h1 : (v ++ (w ++ x)).Perm (w ++ (v ++ x)) := by
    rw [← List.append_assoc, ← List.append_assoc]
    exact List.Perm.append_right x List.perm_append_comm
  rw [List.append_assoc u v (w ++ x), List.append_assoc u w (v ++ x)]
  exact List.Perm.append_left u h1

/-- Helper: threading one shared `assigned` set through the per-position
calls keeps the combined filled ids of both lineups duplicate-free. -/
theorem distributeAllPositions_inv (rankings1 rankings2 : String → List Nat)
    (playerMap : Nat → Option Player) (rosterSettings : List (String × Nat))
    (scoringType : String) (currentWeek : Nat) (hpm : ConsistentMap playerMap) :
    ∀ (posList : List String) (assigned : List Nat),
      (∀ x ∈ assigned, x ∈ (distributeAllPositions rankings1 rankings2 playerMap
          rosterSettings scoringType currentWeek posList assigned).2.2) ∧
      (filledIds (distributeAllPositions rankings1 rankings2 playerMap rosterSettings
            scoringType currentWeek posList assigned).1
        ++ filledIds (distributeAllPositions rankings1 rankings2 playerMap rosterSettings
            scoringType currentWeek posList assigned).2.1).Nodup ∧
      (∀ x ∈ filledIds (distributeAllPositions rankings1 rankings2 playerMap rosterSettings
            scoringType currentWeek posList assigned).1
          ++ filledIds (distributeAllPositions rankings1 rankings2 playerMap rosterSettings
            scoringType currentWeek posList assigned).2.1,
        x ∉ assigned ∧ x ∈ (distributeAllPositions rankings1 rankings2 playerMap
          rosterSettings scoringType currentWeek posList assigned).2.2) := by
  intro posList
  induction posList with
  | nil =>
    intro assigned
    simp [distributeAllPositions, filledIds]
  | cons position rest ih =>
    intro assigned
    by_cases hc : (rosterSettings.lookup position).getD 0 = 0
    · simpa [distributeAllPositions, hc] using ih assigned
    · have h1 := distributePosition_inv (rankings1 position) (rankings2 position) playerMap
        assigned ((rosterSettings.lookup position).getD 0) position scoringType currentWeek hpm
      have h2 := ih (distributePosition (rankings1 position) (rankings2 position) playerMap
        assigned ((rosterSettings.lookup position).getD 0) position scoringType
        currentWeek).2.2
      simp only [distributeAllPositions, if_neg hc, filledIds_append]
      have hperm := append_regroup_perm
        (filledIds (distributePosition (rankings1 position) (rankings2 position) playerMap
          assigned ((rosterSettings.lookup position).getD 0) position scoringType
          currentWeek).1)
        (filledIds (distributeAllPositions rankings1 rankings2 playerMap rosterSettings
          scoringType currentWeek rest (distributePosition (rankings1 position)
          (rankings2 position) playerMap assigned ((rosterSettings.lookup position).getD 0)
          position scoringType currentWeek).2.2).1)
        (filledIds (distributePosition (rankings1 position) (rankings2 position) playerMap
          assigned ((rosterSettings.lookup position).getD 0) position scoringType
          currentWeek).2.1)
        (filledIds (distributeAllPositions rankings1 rankings2 playerMap rosterSettings
          scoringType currentWeek rest (distributePosition (rankings1 position)
          (rankings2 position) playerMap assigned ((rosterSettings.lookup position).getD 0)
          position scoringType currentWeek).2.2).2.1)
      refine ⟨?_, ?_, ?_⟩
      · intro x hx
        exact h2.1 x (h1.1 x hx)
      · refine hperm.symm.nodup (List.nodup_append.mpr ⟨h1.2.1, h2.2.1, ?_⟩)
        intro x hx1 hx2
        exact (h2.2.2 x hx2).1 ((h1.2.2 x hx1).2)
      · intro x hx
        have hx2 := hperm.mem_iff.mp hx
        rcases List.mem_append.mp hx2 with hy | hy
        · obtain ⟨hna, hin⟩ := h1.2.2 x hy
          exact ⟨hna, h2.1 x hin⟩
        · obtain ⟨hna, hin⟩ := h2.2.2 x hy
          exact ⟨fun hc2 => hna (h1.1 x hc2), hin⟩

/-- C1: for every pair of per-position ranked-id maps, every capacity map,
and every entity snapshot, one distribution run — `distributeMatchupLineups`
over all positions of the fixed order, with one shared `assigned` set —
never assigns the same entity id to more than one slot: the filled-slot ids
of `lineupA` and `lineupB` together contain no duplicate. -/
theorem c1_no_duplicate_assignment (rankings1 rankings2 : String → List Nat)
    (players : List Player) (rosterSettings : List (String × Nat))
    (scoringType : String) (currentWeek : Nat) :
    (filledIds (distributeMatchupLineups rankings1 rankings2 players rosterSettings
          scoringType currentWeek).1
      ++ filledIds (distributeMatchupLineups rankings1 rankings2 players rosterSettings
          scoringType currentWeek).2).Nodup := by
  unfold distributeMatchupLineups
  by_cases hempty : ((rosterSettings.map Prod.fst).all
      (fun position => (rankings1 position).isEmpty && (rankings2 position).isEmpty)) = true
  · simp [hempty, filledIds]
  · simp only [hempty, Bool.false_eq_true, if_false]
    exact (distributeAllPositions_inv rankings1 rankings2 (buildPlayerMap players)
      rosterSettings scoringType currentWeek (buildPlayerMap_consistent players)
      POSITIONS []).2.1

/-! ### C2 — the ranking wizard terminates in a total, fully-compared order -/

/-- Helper: renumbering assigns consecutive ranks by position. -/
theorem renumber_map_rank : ∀ (n : Nat) (l : List REntry),
    (renumber n l).map REntry.rank = List.range' n l.length := by
  intro n l
  induction l generalizing n with
  | nil => simp [renumber]
  | cons e es ih => simp [renumber, List.range'_succ, ih]

/-- Helper: renumbering changes no id and no compared flag. -/
theorem renumber_map_proj : ∀ (n : Nat) (l : List REntry),
    (renumber n l).map proj = l.map proj := by
  intro n l
  induction l generalizing n with
  | nil => simp [renumber]
  | cons e es ih => simp [renumber, proj, ih]

/-- Helper: the rank of the entry at index `i` of an invariant-satisfying
list is `i + 1`. -/
theorem getElem?_rank {l : List REntry} (hInv : WizInv l) {i : Nat} {x : REntry}
    (h : l[i]? = some x) : x.rank = i + 1 := by
  obtain ⟨hi, rfl⟩ := List.getElem?_eq_some.mp h
  have h1 : (l.map REntry.rank)[i]? = (List.range' 1 l.length)[i]? := by rw [hInv.1]
  rw [List.getElem?_map, List.getElem?_eq_getElem hi,
    List.getElem?_range' 1 1 (by simpa using hi)] at h1
  simpa [Nat.add_comm] using h1

/-- Helper: two entries of an id-duplicate-free list with the same id are
equal. -/
theorem eq_of_mem_of_id {l : List REntry} (hids : (l.map REntry.id).Nodup)
    {x y : REntry} (hx : x ∈ l) (hy : y ∈ l) (hxy : x.id = y.id) : x = y := by
  obtain ⟨i, hi, rfl⟩ := List.mem_iff_getElem.mp hx
  obtain ⟨j, hj, rfl⟩ := List.mem_iff_getElem.mp hy
  have hi2 : i < (l.map REntry.id).length := by simpa using hi
  have hj2 : j < (l.map REntry.id).length := by simpa using hj
  have hmi : (l.map REntry.id).get ⟨i, hi2⟩ = (l.map REntry.id).get ⟨j, hj2⟩ := by
    simpa [List.getElem_map] using hxy
  have hij : i = j :=
    (@List.Nodup.getElem_inj_iff _ _ hids i hi2 j hj2).mp (by simpa using hmi)
  subst hij
  rfl

/-- Helper: `find?` by the id of a member of an id-duplicate-free list finds
exactly that member. -/
theorem find?_by_id {l : List REntry} (hids : (l.map REntry.id).Nodup)
    {x : REntry} (hx : x ∈ l) : l.find? (fun p => p.id == x.id) = some x := by
  cases hf : l.find? (fun p => p.id == x.id) with
  | none =>
    have := List.find?_eq_none.mp hf x hx
    simp at this
  | some w =>
    have hw : w ∈ l := List.mem_of_find?_eq_some hf
    have hwid : w.id = x.id := by simpa using List.find?_some hf
    rw [eq_of_mem_of_id hids hw hx hwid]

/-- Helper: a member of an invariant-satisfying list sits at the index its
rank names. -/
theorem rank_index {l : List REntry} (hInv : WizInv l) {x : REntry} (hx : x ∈ l) :
    l[x.rank - 1]? = some x := by
  obtain ⟨i, hi⟩ := List.mem_iff_getElem?.mp hx
  have hr : x.rank = i + 1 := getElem?_rank hInv hi
  rw [hr]
  simpa using hi

/-- Helper: `find?` by an occupied rank finds exactly the entry holding that
rank. -/
theorem find?_by_rank {l : List REntry} (hInv : WizInv l) {k : Nat} {x : REntry}
    (hx : x ∈ l) (hrk : x.rank = k) : l.find? (fun p => p.rank == k) = some x := by
  cases hf : l.find? (fun p => p.rank == k) with
  | none =>
    have := List.find?_eq_none.mp hf x hx
    simp [hrk] at this
  | some w =>
    have hw : w ∈ l := List.mem_of_find?_eq_some hf
    have hwr : w.rank = k := by simpa using List.find?_some hf
    have h1 : l[w.rank - 1]? = some w := rank_index hInv hw
    have h2 : l[x.rank - 1]? = some x := rank_index hInv hx
    rw [hwr] at h1
    rw [hrk] at h2
    rw [h1] at h2
    exact h2.symm ▸ rfl

/-- Helper: reduction of `findNextComparison` once the first uncompared
entry is known. -/
theorem findNextComparison_reduce {l : List REntry} {p : REntry}
    (hlen : ¬l.length < 2)
    (hf : l.find? (fun q => !q.isCompared) = some p) :
    findNextComparison l
      = (if p.rank = 1 then
          match l.find? (fun q => q.rank == 2) with
          | none => none
          | some playerB => some (p, playerB)
        else
          match l.find? (fun q => q.rank == p.rank - 1) with
          | none => none
          | some playerA => some (playerA, p)) := by
  unfold findNextComparison
  rw [if_neg hlen, hf]

/-- Helper: a produced comparison pair is either the rank-1-vs-rank-2 edge
case (the uncompared entry holds rank 1) or an adjacent pair whose
lower-positioned entry is the first uncompared one. -/
theorem findNextComparison_some {l : List REntry} (hInv : WizInv l)
    (hlen : 2 ≤ l.length) {a b : REntry}
    (h : findNextComparison l = some (a, b)) :
    (l[0]? = some a ∧ l[1]? = some b ∧ a.isCompared = false) ∨
      (∃ j, 1 ≤ j ∧ l[j - 1]? = some a ∧ l[j]? = some b ∧ b.isCompared = false) := by
  cases hf : l.find? (fun q => !q.isCompared) with
  | none =>
    unfold findNextComparison at h
    rw [if_neg (by omega), hf] at h
    cases h
  | some p =>
    rw [findNextComparison_reduce (by omega) hf] at h
    have hp_mem := List.mem_of_find?_eq_some hf
    have hp_unc : p.isCompared = false := by simpa using List.find?_some hf
    obtain ⟨ip, hip⟩ := List.mem_iff_getElem?.mp hp_mem
    have hp_rank : p.rank = ip + 1 := getElem?_rank hInv hip
    by_cases h1 : p.rank = 1
    · rw [if_pos h1] at h
      have hip0 : ip = 0 := by omega
      have h1lt : 1 < l.length := by omega
      have hmem1 : l[1] ∈ l := List.getElem_mem h1lt
      have hrank1 : REntry.rank (l[1]) = 2 :=
        getElem?_rank hInv (List.getElem?_eq_getElem h1lt)
      rw [find?_by_rank hInv hmem1 hrank1] at h
      cases h
      subst hip0
      exact Or.inl ⟨hip, List.getElem?_eq_getElem h1lt, hp_unc⟩
    · rw [if_neg h1] at h
      have hip1 : 1 ≤ ip := by omega
      obtain ⟨hip_lt, _⟩ := List.getElem?_eq_some.mp hip
      have hlt : ip - 1 < l.length := by omega
      have hmemq : l[ip - 1] ∈ l := List.getElem_mem hlt
      have hrankq : REntry.rank (l[ip - 1]) = p.rank - 1 := by
        have := getElem?_rank hInv (List.getElem?_eq_getElem hlt)
        omega
      rw [find?_by_rank hInv hmemq hrankq] at h
      cases h
      exact Or.inr ⟨ip, hip1, List.getElem?_eq_getElem hlt, hip, hp_unc⟩

/-- Helper: for an invariant state of at least two entries,
`findNextComparison` returns `none` exactly when every entry is compared. -/
theorem findNextComparison_none {l : List REntry} (hInv : WizInv l)
    (hlen : 2 ≤ l.length) :
    findNextComparison l = none ↔ ∀ e ∈ l, e.isCompared = true := by
  constructor
  · intro h e he
    cases hf : l.find? (fun q => !q.isCompared) with
    | none =>
      have := List.find?_eq_none.mp hf e he
      simpa using this
    | some p =>
      exfalso
      rw [findNextComparison_reduce (by omega) hf] at h
      have hp_mem := List.mem_of_find?_eq_some hf
      obtain ⟨ip, hip⟩ := List.mem_iff_getElem?.mp hp_mem
      have hp_rank : p.rank = ip + 1 := getElem?_rank hInv hip
      by_cases h1 : p.rank = 1
      · rw [if_pos h1] at h
        have h1lt : 1 < l.length := by omega
        have hmem1 : l[1] ∈ l := List.getElem_mem h1lt
        have hrank1 : REntry.rank (l[1]) = 2 :=
          getElem?_rank hInv (List.getElem?_eq_getElem h1lt)
        rw [find?_by_rank hInv hmem1 hrank1] at h
        cases h
      · rw [if_neg h1] at h
        obtain ⟨hip_lt, _⟩ := List.getElem?_eq_some.mp hip
        have hlt : ip - 1 < l.length := by omega
        have hmemq : l[ip - 1] ∈ l := List.getElem_mem hlt
        have hrankq : REntry.rank (l[ip - 1]) = p.rank - 1 := by
          have := getElem?_rank hInv (List.getElem?_eq_getElem hlt)
          omega
        rw [find?_by_rank hInv hmemq hrankq] at h
        cases h
  · intro hall
    unfold findNextComparison
    rw [if_neg (by omega)]
    have hnone : l.find? (fun q => !q.isCompared) = none :=
      List.find?_eq_none.mpr (fun x hx => by simp [hall x hx])
    rw [hnone]

/-- Helper: the uncompared count only depends on the id/flag projection. -/
theorem countUncompared_eq_of_proj_perm {l1 l2 : List REntry}
    (h : (l1.map proj).Perm (l2.map proj)) :
    countUncompared l1 = countUncompared l2 := by
  have e1 : countUncompared l1 = List.countP (fun pr => !pr.2) (l1.map proj) := by
    rw [List.countP_map]; rfl
  have e2 : countUncompared l2 = List.countP (fun pr => !pr.2) (l2.map proj) := by
    rw [List.countP_map]; rfl
  rw [e1, e2, h.countP_eq]

/-- Helper: unfolding one entry of a marking pass. -/
theorem markCompared_cons (idA idB : Nat) (x : REntry) (t : List REntry) :
    markCompared idA idB (x :: t)
      = (if x.id = idA ∨ x.id = idB then { x with isCompared := true } else x)
        :: markCompared idA idB t := rfl

/-- Helper: the uncompared count of a cons cell. -/
theorem countUncompared_cons (e : REntry) (t : List REntry) :
    countUncompared (e :: t) = countUncompared t + (if e.isCompared then 0 else 1) := by
  unfold countUncompared
  rw [List.countP_cons]
  cases hc : e.isCompared <;> simp [hc]

/-- Helper: marking entries compared never increases the uncompared count. -/
theorem countUncompared_mark_le (idA idB : Nat) (l : List REntry) :
    countUncompared (markCompared idA idB l) ≤ countUncompared l := by
  induction l with
  | nil => simp [markCompared, countUncompared]
  | cons x t ih =>
    rw [markCompared_cons, countUncompared_cons, countUncompared_cons]
    by_cases hx : x.id = idA ∨ x.id = idB
    · rw [if_pos hx]
      have h1 : ({ x with isCompared := true } : REntry).isCompared = true := rfl
      rw [h1]
      simp only [if_true]
      omega
    · rw [if_neg hx]
      omega

/-- Helper: marking an uncompared member compared strictly decreases the
uncompared count. -/
theorem countUncompared_mark_lt {idA idB : Nat} {l : List REntry}
    (h : ∃ e ∈ l, (e.id = idA ∨ e.id = idB) ∧ e.isCompared = false) :
    countUncompared (markCompared idA idB l) < countUncompared l := by
  induction l with
  | nil => simp at h
  | cons x t ih =>
    obtain ⟨e, he, hcond, hunc⟩ := h
    rw [markCompared_cons, countUncompared_cons, countUncompared_cons]
    rcases List.mem_cons.mp he with rfl | he2
    · rw [if_pos hcond]
      have h1 : ({ e with isCompared := true } : REntry).isCompared = true := rfl
      rw [h1, hunc]
      have hle := countUncompared_mark_le idA idB t
      simp only [show ((true : Bool) = true) = True from by simp,
        show ((false : Bool) = true) = False from by simp, if_true, if_false]
      omega
    · have hlt := ih ⟨e, he2, hcond, hunc⟩
      by_cases hx : x.id = idA ∨ x.id = idB
      · rw [if_pos hx]
        have h1 : ({ x with isCompared := true } : REntry).isCompared = true := rfl
        rw [h1]
        cases hc : x.isCompared <;> simp [hc] <;> omega
      · rw [if_neg hx]
        omega

/-- Helper: marking preserves ranks, ids, and length. -/
theorem markCompared_map_rank (idA idB : Nat) (l : List REntry) :
    (markCompared idA idB l).map REntry.rank = l.map REntry.rank := by
  induction l with
  | nil => rfl
  | cons x t ih =>
    simp only [markCompared, List.map_cons] at *
    by_cases hx : x.id = idA ∨ x.id = idB
    · simp [if_pos hx, ih]
    · simp [if_neg hx, ih]

/-- Helper: marking preserves the id sequence. -/
theorem markCompared_map_id (idA idB : Nat) (l : List REntry) :
    (markCompared idA idB l).map REntry.id = l.map REntry.id := by
  induction l with
  | nil => rfl
  | cons x t ih =>
    simp only [markCompared, List.map_cons] at *
    by_cases hx : x.id = idA ∨ x.id = idB
    · simp [if_pos hx, ih]
    · simp [if_neg hx, ih]

/-- Helper: marking preserves the wizard invariant and the length. -/
theorem markCompared_WizInv {l : List REntry} (hInv : WizInv l) (idA idB : Nat) :
    WizInv (markCompared idA idB l) ∧ (markCompared idA idB l).length = l.length := by
  have hlen : (markCompared idA idB l).length = l.length := by
    simp [markCompared]
  refine ⟨⟨?_, ?_⟩, hlen⟩
  · rw [markCompared_map_rank, hlen]
    exact hInv.1
  · rw [markCompared_map_id]
    exact hInv.2

/-- Helper: a successful `findIdx?` names a valid index satisfying the
predicate. -/
theorem findIdx?_some_spec {p : REntry → Bool} :
    ∀ (l : List REntry) (i : Nat), l.findIdx? p = some i →
      ∃ h : i < l.length, p (l.get ⟨i, h⟩) = true := by
  intro l
  induction l with
  | nil => intro i h; simp at h
  | cons x xs ih =>
    intro i h
    rw [List.findIdx?_cons] at h
    by_cases hp : p x = true
    · rw [if_pos hp] at h
      cases h
      exact ⟨by simp, hp⟩
    · rw [if_neg hp, List.findIdx?_succ] at h
      cases hx : xs.findIdx? p with
      | none => rw [hx] at h; cases h
      | some j =>
        rw [hx] at h
        simp only [Option.map_some'] at h
        obtain ⟨hj, hpj⟩ := ih j hx
        cases h
        exact ⟨by simpa using Nat.succ_lt_succ hj, by simpa using hpj⟩

/-- Helper: a list is a permutation of any of its elements consed onto the
list with that element's index erased. -/
theorem perm_cons_eraseIdx {l : List REntry} {i : Nat} (hi : i < l.length) :
    l.Perm (l.get ⟨i, hi⟩ :: l.eraseIdx i) := by
  conv_lhs => rw [← List.take_append_drop i l]
  rw [List.drop_eq_getElem_cons hi, List.eraseIdx_eq_take_drop_succ]
  exact List.perm_middle

/-- Helper: ids along a list are the first components of its projections. -/
theorem map_id_eq_map_proj_fst (l : List REntry) :
    l.map REntry.id = (l.map proj).map Prod.fst := by
  rw [List.map_map]
  rfl

/-- Helper: a projection-permutation plus renumbered ranks rebuilds the
wizard invariant. -/
theorem wizInv_of_proj_perm {l out : List REntry} (hInv : WizInv l)
    (hperm : (out.map proj).Perm (l.map proj))
    (hrank : out.map REntry.rank = List.range' 1 out.length) :
    WizInv out ∧ out.length = l.length := by
  have hlen : out.length = l.length := by
    have := hperm.length_eq
    simpa using this
  refine ⟨⟨hrank, ?_⟩, hlen⟩
  rw [map_id_eq_map_proj_fst]
  have h2 := (hperm.map Prod.fst).nodup
  rw [← map_id_eq_map_proj_fst] at h2
  exact (List.Perm.nodup (((hperm.map Prod.fst)).symm)) (by
    rw [← map_id_eq_map_proj_fst]
    exact hInv.2)

/-- Helper: `movePlayerToRank` keeps the wizard invariant, permutes the
id/flag projections, and preserves the length, for every target rank. -/
theorem movePlayerToRank_spec (l : List REntry) (playerId newRank : Nat)
    (hInv : WizInv l) :
    WizInv (movePlayerToRank l playerId newRank) ∧
      ((movePlayerToRank l playerId newRank).map proj).Perm (l.map proj) ∧
      (movePlayerToRank l playerId newRank).length = l.length := by
  cases hfi : l.findIdx? (fun p => p.id == playerId) with
  | none =>
    have hred0 : movePlayerToRank l playerId newRank = l := by
      simp only [movePlayerToRank, hfi]
    rw [hred0]
    exact ⟨hInv, List.Perm.refl _, rfl⟩
  | some i =>
    obtain ⟨hi, hpi⟩ := findIdx?_some_spec l i hfi
    have hred : movePlayerToRank l playerId newRank
        = renumber 1 ((l.eraseIdx i).take (newRank - 1) ++ l.get ⟨i, hi⟩
            :: (l.eraseIdx i).drop (newRank - 1)) := by
      simp only [movePlayerToRank, hfi, List.getElem?_eq_getElem hi]
      rfl
    rw [hred]
    have hperm1 : ((l.eraseIdx i).take (newRank - 1) ++ l.get ⟨i, hi⟩
        :: (l.eraseIdx i).drop (newRank - 1)).Perm (l.get ⟨i, hi⟩ :: l.eraseIdx i) := by
      have h1 := @List.perm_middle REntry (l.get ⟨i, hi⟩)
        ((l.eraseIdx i).take (newRank - 1)) ((l.eraseIdx i).drop (newRank - 1))
      have h2 := List.take_append_drop (newRank - 1) (l.eraseIdx i)
      rw [h2] at h1
      exact h1
    have hperm2 : ((l.eraseIdx i).take (newRank - 1) ++ l.get ⟨i, hi⟩
        :: (l.eraseIdx i).drop (newRank - 1)).Perm l :=
      hperm1.trans (perm_cons_eraseIdx hi).symm
    have hprojperm : ((renumber 1 ((l.eraseIdx i).take (newRank - 1) ++ l.get ⟨i, hi⟩
        :: (l.eraseIdx i).drop (newRank - 1))).map proj).Perm (l.map proj) := by
      rw [renumber_map_proj]
      exact hperm2.map proj
    have hrank := renumber_map_rank 1 ((l.eraseIdx i).take (newRank - 1) ++ l.get ⟨i, hi⟩
        :: (l.eraseIdx i).drop (newRank - 1))
    have hlenren : (renumber 1 ((l.eraseIdx i).take (newRank - 1) ++ l.get ⟨i, hi⟩
        :: (l.eraseIdx i).drop (newRank - 1))).length
        = ((l.eraseIdx i).take (newRank - 1) ++ l.get ⟨i, hi⟩
        :: (l.eraseIdx i).drop (newRank - 1)).length := by
      have := congrArg List.length (renumber_map_proj 1 ((l.eraseIdx i).take (newRank - 1)
        ++ l.get ⟨i, hi⟩ :: (l.eraseIdx i).drop (newRank - 1)))
      simpa using this
    obtain ⟨hInvOut, hlenOut⟩ := wizInv_of_proj_perm hInv hprojperm (by
      rw [hrank, hlenren])
    exact ⟨hInvOut, hprojperm, hlenOut⟩

/-- Helper: sorting by rank a list whose ranks are a permutation of
`1..N` yields exactly the ranks `1..N` in order, permutes only positions,
and keeps the length. -/
theorem sortByRank_spec {m : List REntry}
    (hrankperm : ((m.map REntry.rank).Perm (List.range' 1 m.length))) :
    (sortByRank m).map REntry.rank = List.range' 1 m.length ∧
      ((sortByRank m).map proj).Perm (m.map proj) ∧
      (sortByRank m).length = m.length := by
  have hperm : (sortByRank m).Perm m := List.mergeSort_perm m _
  have hlen : (sortByRank m).length = m.length := hperm.length_eq
  have hsorted : List.Pairwise
      (fun a b : REntry => (decide (a.rank ≤ b.rank)) = true) (sortByRank m) := by
    unfold sortByRank
    exact List.sorted_mergeSort
      (fun a b c h1 h2 => by
        simp only [decide_eq_true_eq] at h1 h2 ⊢
        omega)
      (fun a b => by
        simp only [Bool.or_eq_true, decide_eq_true_eq]
        omega) m
  have hpair : List.Pairwise (fun a b : Nat => a ≤ b) ((sortByRank m).map REntry.rank) :=
    List.Pairwise.map REntry.rank (fun a b h => by simpa using h) hsorted
  have hr : List.Pairwise (fun a b : Nat => a ≤ b) (List.range' 1 m.length) :=
    (List.pairwise_lt_range' 1 m.length).imp (fun h => Nat.le_of_lt h)
  have hpr : ((sortByRank m).map REntry.rank).Perm (List.range' 1 m.length) :=
    (hperm.map REntry.rank).trans hrankperm
  exact ⟨List.eq_of_perm_of_sorted hpr hpair hr, hperm.map proj, hlen⟩

/-- Helper: `findIdx?` returns the index when the predicate holds there and
nowhere else. -/
theorem findIdx?_eq_of_unique {p : REntry → Bool} :
    ∀ (l : List REntry) (i : Nat) (hi : i < l.length),
      p (l.get ⟨i, hi⟩) = true →
      (∀ j (hj : j < l.length), p (l.get ⟨j, hj⟩) = true → j = i) →
      l.findIdx? p = some i := by
  intro l
  induction l with
  | nil => intro i hi; simp at hi
  | cons x xs ih =>
    intro i hi hp huniq
    rw [List.findIdx?_cons]
    by_cases hpx : p x = true
    · have h0 : 0 = i := huniq 0 (by simp) (by simpa using hpx)
      rw [if_pos hpx, h0]
    · rw [if_neg hpx, List.findIdx?_succ]
      cases i with
      | zero => exact absurd (by simpa using hp) hpx
      | succ j =>
        have hj : j < xs.length := by simpa using Nat.lt_of_succ_lt_succ hi
        have hpj : p (xs.get ⟨j, hj⟩) = true := by simpa using hp
        have huniq2 : ∀ n (hn : n < xs.length), p (xs.get ⟨n, hn⟩) = true → n = j := by
          intro n hn hpn
          have := huniq (n + 1) (by simpa using Nat.succ_lt_succ hn) (by simpa using hpn)
          omega
        rw [ih j hj hpj huniq2]
        rfl

/-- Helper: searching a duplicate-free list by the id of its `i`-th entry
finds index `i`. -/
theorem findIdx?_by_id {l : List REntry} (hids : (l.map REntry.id).Nodup)
    {i : Nat} (hi : i < l.length) :
    l.findIdx? (fun p => p.id == (l.get ⟨i, hi⟩).id) = some i := by
  apply findIdx?_eq_of_unique l i hi (by simp)
  intro j hj hpj
  have hj2 : j < (l.map REntry.id).length := by simpa using hj
  have hi2 : i < (l.map REntry.id).length := by simpa using hi
  have heq : (l.map REntry.id).get ⟨j, hj2⟩ = (l.map REntry.id).get ⟨i, hi2⟩ := by
    have hpj2 : (l.get ⟨j, hj⟩).id = (l.get ⟨i, hi⟩).id := by simpa using hpj
    simpa [List.getElem_map] using hpj2
  exact (@List.Nodup.getElem_inj_iff _ _ hids j hj2 i hi2).mp (by simpa using heq)

/-- Helper: a promotion cycle with enough fuel settles: the promoted entry
keeps dueling incumbents until it loses or reaches the top, and settlement
is a pure relocation — the invariant holds again, ids and compared flags are
only permuted, and the length is unchanged. -/
theorem runPromotion_spec (pid : Nat) (pc : Nat → Bool) :
    ∀ (fuel : Nat) (l : List REntry) (cpi k : Nat),
      WizInv l → 1 ≤ cpi → cpi ≤ l.length → pid ∈ l.map REntry.id → cpi ≤ fuel →
      ∃ out, runPromotion pid pc fuel l cpi k = some out ∧ WizInv out ∧
        ((out.map proj).Perm (l.map proj)) ∧ out.length = l.length := by
  intro fuel
  induction fuel with
  | zero =>
    intro l cpi k _ h1 _ _ h4
    omega
  | succ f ih =>
    intro l cpi k hInv h1 h2 hpid hfuel
    have hcpi0 : ¬cpi = 0 := by omega
    have hlt : cpi - 1 < l.length := by omega
    have hcp : l[cpi - 1]? = some (l.get ⟨cpi - 1, hlt⟩) :=
      List.getElem?_eq_getElem hlt
    obtain ⟨w, hw_mem, hw_id⟩ : ∃ w ∈ l, w.id = pid := by
      obtain ⟨w, hw, hid⟩ := List.mem_map.mp hpid
      exact ⟨w, hw, hid⟩
    obtain ⟨v, hv⟩ : ∃ v, l.find? (fun p => p.id == pid) = some v := by
      cases hf : l.find? (fun p => p.id == pid) with
      | none => exact absurd (by simp [hw_id]) (List.find?_eq_none.mp hf w hw_mem)
      | some v => exact ⟨v, rfl⟩
    by_cases hsel : (if pc k then pid else (l.get ⟨cpi - 1, hlt⟩).id) = pid
    · by_cases htop : cpi - 1 = 0
      · have hhp : handlePromotionChoice l pid cpi
            (if pc k then pid else (l.get ⟨cpi - 1, hlt⟩).id)
            = some ⟨movePlayerToRank l pid 1, false, none⟩ := by
          simp only [handlePromotionChoice, if_neg hcpi0, hcp, hv, if_pos hsel, if_pos htop]
        obtain ⟨hI, hP, hL⟩ := movePlayerToRank_spec l pid 1 hInv
        refine ⟨movePlayerToRank l pid 1, ?_, hI, hP, hL⟩
        simp only [runPromotion, if_neg hcpi0, hcp, hhp]
      · have hhp : handlePromotionChoice l pid cpi
            (if pc k then pid else (l.get ⟨cpi - 1, hlt⟩).id)
            = some ⟨l, true, some (cpi - 1)⟩ := by
          simp only [handlePromotionChoice, if_neg hcpi0, hcp, hv, if_pos hsel, if_neg htop]
        obtain ⟨out, hout, hI, hP, hL⟩ := ih l (cpi - 1) (k + 1) hInv (by omega) (by omega)
          hpid (by omega)
        refine ⟨out, ?_, hI, hP, hL⟩
        simp only [runPromotion, if_neg hcpi0, hcp, hhp]
        exact hout
    · have hhp : handlePromotionChoice l pid cpi
          (if pc k then pid else (l.get ⟨cpi - 1, hlt⟩).id)
          = some ⟨movePlayerToRank l pid (cpi + 1), false, none⟩ := by
        simp only [handlePromotionChoice, if_neg hcpi0, hcp, hv, if_neg hsel]
      obtain ⟨hI, hP, hL⟩ := movePlayerToRank_spec l pid (cpi + 1) hInv
      refine ⟨movePlayerToRank l pid (cpi + 1), ?_, hI, hP, hL⟩
      simp only [runPromotion, if_neg hcpi0, hcp, hhp]

/-- Helper: the rank-1-beats-rank-2 special case of `processSelection`: the
rank swap followed by the re-sort restores the invariant; ids and flags are
exactly those of marking both originating entries compared. -/
theorem specialSort_spec {l : List REntry} (hInv : WizInv l) {a b : REntry}
    (ha : l[0]? = some a) (hb : l[1]? = some b) :
    WizInv (sortByRank (l.map (fun p =>
        if p.id = b.id then { p with rank := 1, isCompared := true }
        else if p.id = a.id then { p with rank := 2, isCompared := true } else p))) ∧
      (sortByRank (l.map (fun p =>
        if p.id = b.id then { p with rank := 1, isCompared := true }
        else if p.id = a.id then { p with rank := 2, isCompared := true } else p))).length
        = l.length ∧
      countUncompared (sortByRank (l.map (fun p =>
        if p.id = b.id then { p with rank := 1, isCompared := true }
        else if p.id = a.id then { p with rank := 2, isCompared := true } else p)))
        = countUncompared (markCompared b.id a.id l) := by
  have hprojm : (l.map (fun p =>
      if p.id = b.id then { p with rank := 1, isCompared := true }
      else if p.id = a.id then { p with rank := 2, isCompared := true } else p)).map proj
      = (markCompared b.id a.id l).map proj := by
    unfold markCompared
    rw [List.map_map, List.map_map]
    apply List.map_congr_left
    intro p _
    by_cases h1 : p.id = b.id
    · simp [proj, h1]
    · by_cases h2 : p.id = a.id
      · rw [h2] at h1
        simp [proj, h1, h2]
      · simp [proj, h1, h2]
  have hrankperm : ((l.map (fun p =>
      if p.id = b.id then { p with rank := 1, isCompared := true }
      else if p.id = a.id then { p with rank := 2, isCompared := true } else p)).map
        REntry.rank).Perm (List.range' 1 (l.map (fun p =>
      if p.id = b.id then { p with rank := 1, isCompared := true }
      else if p.id = a.id then { p with rank := 2, isCompared := true } else p)).length) := by
    cases l with
    | nil => simp at ha
    | cons x xs =>
      cases xs with
      | nil => simp at hb
      | cons y t =>
        have hxa : x = a := by simpa using ha
        have hyb : y = b := by simpa using hb
        subst hxa
        subst hyb
        have h3 := hInv.1
        simp only [List.map_cons, List.length_cons, List.range'_succ] at h3
        obtain ⟨h4, h5, h6⟩ : x.rank = 1 ∧ y.rank = 2 ∧ t.map REntry.rank
            = List.range' 3 t.length := by
          simpa using h3
        have hab : x.id ≠ y.id := by
          intro hcc
          have hxy := eq_of_mem_of_id hInv.2 (by simp) (by
            simp : y ∈ x :: y :: t) hcc
          rw [hxy] at h4
          omega
        have hndup := hInv.2
        simp only [List.map_cons, List.nodup_cons] at hndup
        have htf : t.map (fun p =>
            if p.id = y.id then { p with rank := 1, isCompared := true }
            else if p.id = x.id then { p with rank := 2, isCompared := true } else p) = t := by
          have hcongr : ∀ p ∈ t, (if p.id = y.id then
              ({ p with rank := 1, isCompared := true } : REntry)
              else if p.id = x.id then { p with rank := 2, isCompared := true } else p)
              = id p := by
            intro p hp
            have hpy : p.id ≠ y.id := by
              intro hc
              exact hndup.2.1 (by rw [← hc]; exact List.mem_map_of_mem REntry.id hp)
            have hpx : p.id ≠ x.id := by
              intro hc
              exact hndup.1 (by
                rw [List.mem_cons]
                right
                rw [← hc]
                exact List.mem_map_of_mem REntry.id hp)
            rw [if_neg hpy, if_neg hpx]
            rfl
          rw [List.map_congr_left hcongr, List.map_id]
        simp only [List.map_cons, htf, List.length_cons, List.range'_succ, h6,
          if_neg hab, if_pos rfl]
        simpa using List.Perm.swap (1 : Nat) 2 (List.range' 3 t.length)
  obtain ⟨hsrank, hsperm, hslen⟩ := sortByRank_spec hrankperm
  have hpermmark : ((sortByRank (l.map (fun p =>
      if p.id = b.id then { p with rank := 1, isCompared := true }
      else if p.id = a.id then { p with rank := 2, isCompared := true } else p))).map
        proj).Perm ((markCompared b.id a.id l).map proj) := by
    rw [← hprojm]
    exact hsperm
  obtain ⟨hImark, hLmark⟩ := markCompared_WizInv hInv b.id a.id
  obtain ⟨hIout, hLout⟩ := wizInv_of_proj_perm hImark hpermmark (by
    rw [hsrank, hslen])
  refine ⟨hIout, ?_, countUncompared_eq_of_proj_perm hpermmark⟩
  rw [hLout, hLmark]

/-- Helper: one resolved comparison — selection plus, when requested, a full
promotion cycle — succeeds from any invariant state with a pending pair,
restores the invariant, keeps the length, and strictly decreases the number
of uncompared entries. -/
theorem wizardRound_spec (l : List REntry) (choice : Bool) (promChoices : Nat → Bool)
    (hInv : WizInv l) (hlen : 2 ≤ l.length) (a b : REntry)
    (hfnc : findNextComparison l = some (a, b)) :
    ∃ out, wizardRound l choice promChoices = some out ∧ WizInv out ∧
      out.length = l.length ∧ countUncompared out < countUncompared l := by
  rcases findNextComparison_some hInv hlen hfnc with ⟨ha, hb, haunc⟩ | ⟨j, hj1, ha, hb, hbunc⟩
  · -- edge case: the uncompared entry holds rank 1 and duels rank 2
    have ha_mem : a ∈ l := List.mem_iff_getElem?.mpr ⟨0, ha⟩
    have hb_mem : b ∈ l := List.mem_iff_getElem?.mpr ⟨1, hb⟩
    have hrka : a.rank = 1 := by simpa using getElem?_rank hInv ha
    have hrkb : b.rank = 2 := by simpa using getElem?_rank hInv hb
    have hfw := find?_by_id hInv.2 ha_mem
    have hfl := find?_by_id hInv.2 hb_mem
    cases choice with
    | true =>
      have hps : processSelection l a.id b.id
          = some ⟨markCompared a.id b.id l, false, none⟩ := by
        simp only [processSelection, hfw, hfl]
        rw [if_neg (by simp [hrka, hrkb]), if_neg (by simp [hrka, hrkb])]
        rfl
      refine ⟨markCompared a.id b.id l, ?_, (markCompared_WizInv hInv a.id b.id).1,
        (markCompared_WizInv hInv a.id b.id).2,
        countUncompared_mark_lt ⟨a, ha_mem, Or.inl rfl, haunc⟩⟩
      simp [wizardRound, hfnc, hps]
    | false =>
      have hps : processSelection l b.id a.id
          = some ⟨sortByRank (l.map (fun p =>
              if p.id = b.id then { p with rank := 1, isCompared := true }
              else if p.id = a.id then { p with rank := 2, isCompared := true } else p)),
            false, none⟩ := by
        simp only [processSelection, hfl, hfw]
        rw [if_pos ⟨hrka, hrkb⟩]
      obtain ⟨hI, hL, hC⟩ := specialSort_spec hInv ha hb
      refine ⟨_, ?_, hI, hL, ?_⟩
      · simp [wizardRound, hfnc, hps]
      · rw [hC]
        exact countUncompared_mark_lt ⟨a, ha_mem, Or.inr rfl, haunc⟩
  · -- general case: the first uncompared entry duels the entry above it
    obtain ⟨hjlt, hbv⟩ := List.getElem?_eq_some.mp hb
    have hj1lt : j - 1 < l.length := by omega
    have ha_mem : a ∈ l := List.mem_iff_getElem?.mpr ⟨j - 1, ha⟩
    have hb_mem : b ∈ l := List.mem_iff_getElem?.mpr ⟨j, hb⟩
    have hrka : a.rank = j - 1 + 1 := getElem?_rank hInv ha
    have hrkb : b.rank = j + 1 := getElem?_rank hInv hb
    have hfw := find?_by_id hInv.2 ha_mem
    have hfl := find?_by_id hInv.2 hb_mem
    cases choice with
    | true =>
      have hps : processSelection l a.id b.id
          = some ⟨markCompared a.id b.id l, false, none⟩ := by
        simp only [processSelection, hfw, hfl]
        rw [if_neg (by rw [hrkb]; omega), if_neg (by rw [hrka, hrkb]; omega)]
        rfl
      refine ⟨markCompared a.id b.id l, ?_, (markCompared_WizInv hInv a.id b.id).1,
        (markCompared_WizInv hInv a.id b.id).2,
        countUncompared_mark_lt ⟨b, hb_mem, Or.inr rfl, hbunc⟩⟩
      simp [wizardRound, hfnc, hps]
    | false =>
      by_cases hj2 : j = 1
      · subst hj2
        have hps : processSelection l b.id a.id
            = some ⟨sortByRank (l.map (fun p =>
                if p.id = b.id then { p with rank := 1, isCompared := true }
                else if p.id = a.id then { p with rank := 2, isCompared := true } else p)),
              false, none⟩ := by
          simp only [processSelection, hfl, hfw]
          rw [if_pos ⟨by rw [hrka], by rw [hrkb]⟩]
        obtain ⟨hI, hL, hC⟩ := specialSort_spec hInv (by simpa using ha) hb
        refine ⟨_, ?_, hI, hL, ?_⟩
        · simp [wizardRound, hfnc, hps]
        · rw [hC]
          exact countUncompared_mark_lt ⟨b, hb_mem, Or.inl rfl, hbunc⟩
      · have hj3 : 2 ≤ j := by omega
        have hps : processSelection l b.id a.id = some ⟨l, true, some b.id⟩ := by
          simp only [processSelection, hfl, hfw]
          rw [if_neg (by rw [hrka]; omega), if_pos (by rw [hrka, hrkb]; omega)]
        have hget : l.get ⟨j - 1, hj1lt⟩ = a := by
          obtain ⟨h1, h2⟩ := List.getElem?_eq_some.mp ha
          exact h2
        have hfidx : l.findIdx? (fun p => p.id == a.id) = some (j - 1) := by
          have h3 := findIdx?_by_id hInv.2 hj1lt
          rw [hget] at h3
          exact h3
        obtain ⟨out1, hout1, hI1, hP1, hL1⟩ := runPromotion_spec b.id promChoices
          ((j - 1) + 1) l (j - 1) 0 hInv (by omega) (by omega)
          (List.mem_map_of_mem REntry.id hb_mem) (by omega)
        refine ⟨markCompared a.id b.id out1, ?_,
          (markCompared_WizInv hI1 a.id b.id).1, ?_, ?_⟩
        · simp [wizardRound, hfnc, hps, hfidx, hout1]
        · rw [(markCompared_WizInv hI1 a.id b.id).2, hL1]
        · have hceq : countUncompared out1 = countUncompared l :=
            countUncompared_eq_of_proj_perm hP1
          have hbmem_proj : (b.id, false) ∈ out1.map proj := by
            rw [hP1.mem_iff]
            have hpb : proj b = (b.id, false) := by simp [proj, hbunc]
            rw [← hpb]
            exact List.mem_map_of_mem proj hb_mem
          obtain ⟨e, he_mem, he_proj⟩ := List.mem_map.mp hbmem_proj
          have he1 : e.id = b.id := congrArg Prod.fst he_proj
          have he2 : e.isCompared = false := congrArg Prod.snd he_proj
          have hlt2 : countUncompared (markCompared a.id b.id out1) < countUncompared out1 :=
            countUncompared_mark_lt ⟨e, he_mem, Or.inr he1, he2⟩
          omega

/-- Helper: the wizard session driver, given at least as much fuel as there
are uncompared entries, reaches a state with no pending comparison while
preserving the invariant and the length. -/
theorem runWizard_spec (choices : Nat → Bool) (promChoices : Nat → Nat → Bool) :
    ∀ (fuel : Nat) (l : List REntry) (i : Nat),
      WizInv l → 2 ≤ l.length → countUncompared l ≤ fuel →
      findNextComparison (runWizard choices promChoices fuel i l) = none ∧
      WizInv (runWizard choices promChoices fuel i l) ∧
      (runWizard choices promChoices fuel i l).length = l.length := by
  intro fuel
  induction fuel with
  | zero =>
    intro l i hInv hlen hcount
    have hz : countUncompared l = 0 := by omega
    have hall : ∀ e ∈ l, e.isCompared = true := by
      intro e he
      have h2 := List.countP_eq_zero.mp hz e he
      simpa using h2
    exact ⟨(findNextComparison_none hInv hlen).mpr hall, hInv, rfl⟩
  | succ f ih =>
    intro l i hInv hlen hcount
    cases hf : findNextComparison l with
    | none =>
      have hred : runWizard choices promChoices (f + 1) i l = l := by
        simp [runWizard, hf]
      rw [hred]
      exact ⟨hf, hInv, rfl⟩
    | some pr =>
      obtain ⟨a, b⟩ := pr
      obtain ⟨out, hout, hI, hL, hC⟩ := wizardRound_spec l (choices i) (promChoices i)
        hInv hlen a b hf
      have hred : runWizard choices promChoices (f + 1) i l
          = runWizard choices promChoices f (i + 1) out := by
        simp [runWizard, hf, hout]
      rw [hred]
      obtain ⟨h1, h2, h3⟩ := ih out (i + 1) hI (by omega) (by omega)
      exact ⟨h1, h2, by rw [h3, hL]⟩

/-- C2: for every initial entry list of `N ≥ 2` entries carrying the ranks
`1..N` in order (as the wizard component creates them) with all compared
flags false, and for every sequence of user choices — both in ordinary
comparisons and inside promotion cycles — the wizard session driven by
`findNextComparison` / `processSelection` / `handlePromotionChoice` reaches,
within `N` resolved comparisons, a state where `findNextComparison` returns
`none`; in that terminal state the multiset of ranks is exactly `{1..N}`
(indeed the ranks read `1..N` in order) and every entry is compared. -/
theorem c2_wizard_terminates (l : List REntry) (choices : Nat → Bool)
    (promChoices : Nat → Nat → Bool) (hlen : 2 ≤ l.length)
    (hrank : l.map REntry.rank = List.range' 1 l.length)
    (hids : (l.map REntry.id).Nodup)
    (_hunc : ∀ e ∈ l, e.isCompared = false) :
    findNextComparison (runWizard choices promChoices l.length 0 l) = none ∧
      (runWizard choices promChoices l.length 0 l).map REntry.rank
        = List.range' 1 l.length ∧
      ∀ e ∈ runWizard choices promChoices l.length 0 l, e.isCompared = true := by
  have hInv : WizInv l := ⟨hrank, hids⟩
  have hcount : countUncompared l ≤ l.length := List.countP_le_length _
  obtain ⟨h1, h2, h3⟩ := runWizard_spec choices promChoices l.length l 0 hInv hlen hcount
  refine ⟨h1, ?_, ?_⟩
  · rw [h2.1, h3]
  · exact (findNextComparison_none h2 (by rw [h3]; exact hlen)).mp h1

/-- C2 witness: a three-entry session in which the lower-ranked entry always
wins (forcing promotion cycles) still terminates with ranks `1..3` and all
entries compared. -/
theorem c2_witness :
    findNextComparison (runWizard (fun _ => false) (fun _ _ => true) 3 0
        [⟨10, 1, false⟩, ⟨20, 2, false⟩, ⟨30, 3, false⟩]) = none ∧
      (runWizard (fun _ => false) (fun _ _ => true) 3 0
        [⟨10, 1, false⟩, ⟨20, 2, false⟩, ⟨30, 3, false⟩]).map REntry.rank
        = List.range' 1 3 ∧
      ∀ e ∈ runWizard (fun _ => false) (fun _ _ => true) 3 0
        [⟨10, 1, false⟩, ⟨20, 2, false⟩, ⟨30, 3, false⟩], e.isCompared = true := by
  have h := c2_wizard_terminates [⟨10, 1, false⟩, ⟨20, 2, false⟩, ⟨30, 3, false⟩]
    (fun _ => false) (fun _ _ => true) (by decide) (by decide) (by decide) (by decide)
  simpa using h
